import Mathlib

set_option maxRecDepth 10000

/-!
Shallow embedding of the B-tree implementation (`bt_*` functions of the C
source, compiled with `BT_ELEM = int`, `BT_FACTOR = 2`, default comparator).

Modelling choices:
* A C node `struct bnode { uint32_t n; int elems[5]; struct bnode* children[6]; }`
  is modelled as `BNode` holding the list of its `n` keys and the list of its
  non-NULL logical children (`children[0..n]` for internal nodes, `[]` for a
  leaf, whose child slots are all NULL).  Reading `children[i]` in C is
  modelled by `cs[i]?`, which yields `none` exactly where the C pointer is
  NULL on well-formed nodes; stale array slots beyond `n` are never read by
  the C code on such nodes.
* C `int` keys are modelled as `Int` (only compared, never overflowed).
* The `int* prev` out-parameter of `bt_insert` is modelled as an explicit
  memory cell `Option Int` (NULL pointer = `none`, otherwise the cell's
  current contents) threaded through and returned.
* `bt_node_bsearch`'s do-while loop is modelled by `bsearchGo`, which is
  instrumented to also return the list of `elems` indices it reads and
  whether the C `assert(left == right)` held on the not-found exit path.
* The DFS iterator's fixed 32-frame array with `top` index is modelled as a
  list of live frames `(i, node)`, top first; frames above `top` are dead in
  C and are dropped here.
-/

inductive BNode where
  | node (elems : List Int) (children : List BNode)

def BNode.elems : BNode → List Int
  | .node es _ => es

def BNode.children : BNode → List BNode
  | .node _ cs => cs

structure BT where
  root : Option BNode
  size : Nat

/-- `bt_default_cmp` for `int`: three-way comparison. -/
def bt_default_cmp (a b : Int) : Int :=
  if a > b then 1 else if a < b then -1 else 0

/-- "compares less than" under the configured comparison rule. -/
def cmpLT (a b : Int) : Prop := bt_default_cmp a b = -1

instance cmpLT.decidable (a b : Int) : Decidable (cmpLT a b) :=
  inferInstanceAs (Decidable (bt_default_cmp a b = -1))

/-- `bt_mk`: `{ .root = NULL }` (the compound literal zero-initialises `size`). -/
def bt_mk : BT := ⟨none, 0⟩

/-- The do-while loop of `bt_node_bsearch`, instrumented: returns
(C return value, list of `elems` indices read, whether every
`assert(left == right)` on a not-found exit held). -/
def bsearchGo (es : List Int) (e : Int) (left right : Nat) : Int × List Nat × Bool :=
  let mid := left + (right - left) / 2
  let cmp := bt_default_cmp e (es.getD mid 0)
  if 0 < cmp then
    if _h2 : mid + 1 < right then
      let r := bsearchGo es e (mid + 1) right
      (r.1, mid :: r.2.1, r.2.2)
    else (-(mid + 1 : Int) - 1, [mid], decide (mid + 1 = right))
  else if cmp < 0 then
    if _h4 : left < mid then
      let r := bsearchGo es e left mid
      (r.1, mid :: r.2.1, r.2.2)
    else (-(left : Int) - 1, [mid], decide (left = mid))
  else ((mid : Int), [mid], true)
termination_by right - left
decreasing_by
  · omega
  · omega

/-- `bt_node_bsearch(node, elem)`: C return value. -/
def bt_node_bsearch (nd : BNode) (elem : Int) : Int :=
  (bsearchGo nd.elems elem 0 nd.elems.length).1

/-- The loop body of `bt_lookup_node`; returns (found element, last visited
node), modelling the returned pointer's pointee and the `*node` out-param. -/
def bt_lookup_go (nd : BNode) (elem : Int) : Option Int × BNode :=
  let idx := bt_node_bsearch nd elem
  if 0 ≤ idx then (some (nd.elems.getD idx.toNat 0), nd)
  else
    match h : nd.children[(-idx - 1).toNat]? with
    | some c => bt_lookup_go c elem
    | none => (none, nd)
termination_by sizeOf nd
decreasing_by
  have hm : c ∈ nd.children := List.getElem?_mem h
  have h1 : sizeOf c < sizeOf nd.children := List.sizeOf_lt_of_mem hm
  cases nd with
  | node es cs => simp only [BNode.children] at h1; simp; omega

/-- `bt_lookup_node(bt, elem, node)`. -/
def bt_lookup_node (bt : BT) (elem : Int) : Option Int × Option BNode :=
  match bt.root with
  | none => (none, none)
  | some r =>
    let p := bt_lookup_go r elem
    (p.1, some p.2)

/-- `bt_lookup(bt, elem)`. -/
def bt_lookup (bt : BT) (elem : Int) : Option Int :=
  (bt_lookup_node bt elem).1

/-- `bt_split_node(parent, idx)`: splits `parent->children[idx]` (which must
hold `2*2+1 = 5` keys), inserting the freshly allocated sibling at
`children[idx+1]`.  Returns (updated parent, promoted key).  The C code would
dereference NULL when `children[idx]` is absent; that path is never taken and
is modelled as a no-op. -/
def bt_split_node (parent : BNode) (idx : Nat) : BNode × Int :=
  match parent.children[idx]? with
  | none => (parent, 0)
  | some child =>
    let sib : BNode :=
      ⟨child.elems.drop (2 + 1),
       if child.children.isEmpty then [] else child.children.drop (2 + 1)⟩
    let child1 : BNode := ⟨child.elems.take 2, child.children.take (2 + 1)⟩
    (⟨parent.elems, (parent.children.set idx child1).insertIdx (idx + 1) sib⟩,
     child.elems.getD 2 0)

/-- `bt_node_insert(node, elem, prev)`: returns (updated node, replaced?,
contents of the `prev` cell after the call). -/
def bt_node_insert (nd : BNode) (elem : Int) (prev : Option Int) :
    BNode × Bool × Option Int :=
  let idx := bt_node_bsearch nd elem
  if 0 ≤ idx then
    (⟨nd.elems.set idx.toNat elem, nd.children⟩, true,
     prev.map fun _ => nd.elems.getD idx.toNat 0)
  else
    let i := (-idx - 1).toNat
    match h : nd.children[i]? with
    | some child =>
      let r := bt_node_insert child elem prev
      let nd1 : BNode := ⟨nd.elems, nd.children.set i r.1⟩
      if r.1.elems.length ≤ 2 * 2 then (nd1, r.2.1, r.2.2)
      else
        let s := bt_split_node nd1 i
        (⟨s.1.elems.insertIdx i s.2, s.1.children⟩, false, r.2.2)
    | none => (⟨nd.elems.insertIdx i elem, nd.children⟩, false, prev)
termination_by sizeOf nd
decreasing_by
  have hm : child ∈ nd.children := List.getElem?_mem h
  have h1 : sizeOf child < sizeOf nd.children := List.sizeOf_lt_of_mem hm
  cases nd with
  | node es cs => simp only [BNode.children] at h1; simp; omega

/-- `bt_insert(bt, elem, prev)`: returns (updated tree, replaced?, contents of
the `prev` cell after the call). -/
def bt_insert (bt : BT) (elem : Int) (prev : Option Int) :
    BT × Bool × Option Int :=
  match bt.root with
  | none => (⟨some ⟨[elem], []⟩, bt.size⟩, false, prev)
  | some root =>
    let r := bt_node_insert root elem prev
    if 2 * 2 < r.1.elems.length then
      let s := bt_split_node ⟨[], [r.1]⟩ 0
      (⟨some ⟨[s.2], s.1.children⟩, bt.size⟩, r.2.1, r.2.2)
    else (⟨some r.1, bt.size⟩, r.2.1, r.2.2)

/-- A sequence of `bt_insert` calls (element, `prev` cell) applied to `bt_mk`. -/
def applyOps (ops : List (Int × Option Int)) : BT :=
  ops.foldl (fun bt op => (bt_insert bt op.1 op.2).1) bt_mk

/-- Trees reachable from `bt_mk` by `bt_insert` calls. -/
def Reachable (bt : BT) : Prop := ∃ ops, applyOps ops = bt

/-- In-order flattening of a child list interleaved with a key list:
`interleave [c0, …, cn] [e0, …, e(n-1)] = c0 e0 c1 e1 … e(n-1) cn`. -/
def interleave : List BNode → List Int → List Int
  | [], es => es
  | .node es0 cs0 :: _, [] => interleave cs0 es0
  | .node es0 cs0 :: cs, e :: es => interleave cs0 es0 ++ e :: interleave cs es
termination_by cs _ => sizeOf cs
decreasing_by all_goals (simp <;> omega)

/-- In-order list of the keys stored in a subtree. -/
def inorder (nd : BNode) : List Int := interleave nd.children nd.elems

/-- Keys stored in a subtree, in per-node storage order. -/
def storedL : List BNode → List Int
  | [] => []
  | .node es0 cs0 :: cs => es0 ++ storedL cs0 ++ storedL cs
termination_by cs => sizeOf cs
decreasing_by all_goals (simp <;> omega)

/-- Keys stored in a subtree. -/
def storedKeys (nd : BNode) : List Int := nd.elems ++ storedL nd.children

/-- In-order list of the keys of a whole tree. -/
def inorderBT (bt : BT) : List Int :=
  match bt.root with
  | none => []
  | some r => inorder r

/-- Keys stored in a whole tree. -/
def storedBT (bt : BT) : List Int :=
  match bt.root with
  | none => []
  | some r => storedKeys r

/-- Total traversal work of a child list (loop-iteration count measure used to
prove the DFS iterator loop terminates). -/
def Wl : List BNode → Nat
  | [] => 0
  | .node es0 cs0 :: cs => 1 + (Wl cs0 + es0.length + 2) + Wl cs
termination_by cs => sizeOf cs
decreasing_by all_goals (simp <;> omega)

/-- Remaining work of one iterator frame. -/
def frameR (i : Nat) (nd : BNode) (vis : Bool) : Nat :=
  Wl (nd.children.drop (if vis then i + 1 else i)) + (nd.elems.length + 2 - i)

/-- Remaining work of an iterator stack. -/
def stackMu : List (Nat × Option BNode) → Bool → Nat
  | [], _ => 0
  | (_, none) :: rest, _ => stackMu rest true
  | (i, some nd) :: rest, vis => frameR i nd vis + stackMu rest true

theorem Wl_drop_getElem (cs : List BNode) (i : Nat) (c : BNode) (h : cs[i]? = some c) :
    Wl (cs.drop i) = 1 + (Wl c.children + c.elems.length + 2) + Wl (cs.drop (i + 1)) := by
  have hl : i < cs.length := by
    by_contra hc
    simp [List.getElem?_eq_none (by omega : cs.length ≤ i)] at h
  have hd : cs.drop i = c :: cs.drop (i + 1) := by
    rw [← List.getElem_cons_drop cs i hl]
    have : cs[i] = c := by
      have := List.getElem?_eq_getElem hl
      rw [this] at h; exact (Option.some.injEq _ _).mp h
    rw [this]
  rw [hd]
  cases c with
  | node es0 cs0 => simp [Wl, BNode.elems, BNode.children]

theorem Wl_drop_le (cs : List BNode) (i : Nat) :
    Wl (cs.drop (i + 1)) ≤ Wl (cs.drop i) := by
  cases h : cs[i]? with
  | some c => rw [Wl_drop_getElem cs i c h]; omega
  | none =>
    have : cs.length ≤ i := by
      by_contra hc
      simp [List.getElem?_eq_getElem (by omega : i < cs.length)] at h
    rw [List.drop_eq_nil_of_le (by omega), List.drop_eq_nil_of_le (by omega)]

/-- The loop of `bt_iter_dfs_next`: takes the live frames (top first) and the
`visited_child` flag, returns the yielded element (NULL = `none`) and the
stack as left for the next call. -/
def iterLoop : List (Nat × Option BNode) → Bool → Option Int × List (Nat × Option BNode)
  | [], _ => (none, [])
  | (i, none) :: rest, _ => (none, (i, none) :: rest)
  | (i, some nd) :: rest, vis =>
    if h1 : nd.elems.length < i then
      match rest with
      | [] => (none, [(i, some nd)])
      | f :: rs => iterLoop (f :: rs) true
    else
      match h2 : (if vis then none else nd.children[i]?) with
      | some c => iterLoop ((0, some c) :: (i, some nd) :: rest) vis
      | none =>
        if h3 : i < nd.elems.length then
          (some (nd.elems.getD i 0), (i + 1, some nd) :: rest)
        else iterLoop ((i + 1, some nd) :: rest) vis
termination_by s vis => 2 * stackMu s vis + s.length
decreasing_by
  · simp only [stackMu, List.length_cons]; omega
  · cases vis with
    | true => simp at h2
    | false =>
      simp only [Bool.false_eq_true, if_false] at h2
      have hW := Wl_drop_getElem nd.children i c h2
      simp [stackMu, frameR]
      omega
  · have hle := Wl_drop_le nd.children (if vis then i + 1 else i)
    cases vis with
    | true =>
      simp [stackMu, frameR] at hle ⊢
      omega
    | false =>
      simp [stackMu, frameR] at hle ⊢
      omega

/-- `bt_iter_dfs_mk(btree)`: one frame, cursor 0 at the root. -/
def bt_iter_dfs_mk (bt : BT) : List (Nat × Option BNode) := [(0, bt.root)]

/-- `bt_iter_dfs_next(iter)`: result and updated iterator state. -/
def bt_iter_dfs_next (s : List (Nat × Option BNode)) :
    Option Int × List (Nat × Option BNode) := iterLoop s false

/-- Iterator state after `k` calls to `bt_iter_dfs_next`. -/
def iterState (s : List (Nat × Option BNode)) : Nat → List (Nat × Option BNode)
  | 0 => s
  | k + 1 => (bt_iter_dfs_next (iterState s k)).2

/-- Result of the `(k+1)`-st call to `bt_iter_dfs_next`. -/
def iterOut (s : List (Nat × Option BNode)) (k : Nat) : Option Int :=
  (bt_iter_dfs_next (iterState s k)).1

/-! ### Comparator facts -/

theorem cmp_pos_iff (a b : Int) : 0 < bt_default_cmp a b ↔ b < a := by
  unfold bt_default_cmp
  split
  · simpa using by omega
  · split <;> simp <;> omega

theorem cmp_neg_iff (a b : Int) : bt_default_cmp a b < 0 ↔ a < b := by
  unfold bt_default_cmp
  split
  · simpa using by omega
  · split <;> simp <;> omega

theorem cmp_zero_iff (a b : Int) : bt_default_cmp a b = 0 ↔ a = b := by
  unfold bt_default_cmp
  split
  · simpa using by omega
  · split <;> simp <;> omega

theorem cmpLT_iff (a b : Int) : cmpLT a b ↔ a < b := by
  unfold cmpLT bt_default_cmp
  split
  · simpa using by omega
  · split <;> simp <;> omega

/-! ### Binary search -/

theorem sorted_getD_lt (es : List Int) (j k : Nat) (hs : List.Pairwise (· < ·) es)
    (hjk : j < k) (hk : k < es.length) : es.getD j 0 < es.getD k 0 := by
  rw [List.getD_eq_getElem es 0 (by omega), List.getD_eq_getElem es 0 hk]
  exact List.pairwise_iff_getElem.mp hs j k (by omega) hk hjk

theorem bsearchGo_spec (es : List Int) (e : Int) (hs : List.Pairwise (· < ·) es) :
    ∀ fuel left right, right - left ≤ fuel → left < right → right ≤ es.length →
    (∀ j, j < left → es.getD j 0 < e) →
    (∀ j, right ≤ j → j < es.length → e < es.getD j 0) →
    (∀ m ∈ (bsearchGo es e left right).2.1, left ≤ m ∧ m < right) ∧
    (bsearchGo es e left right).2.2 = true ∧
    ((0 ≤ (bsearchGo es e left right).1 ∧
      (bsearchGo es e left right).1.toNat < es.length ∧
      es.getD (bsearchGo es e left right).1.toNat 0 = e) ∨
     ((bsearchGo es e left right).1 < 0 ∧
      (-(bsearchGo es e left right).1 - 1).toNat ≤ es.length ∧
      (∀ j, j < (-(bsearchGo es e left right).1 - 1).toNat → es.getD j 0 < e) ∧
      (∀ j, (-(bsearchGo es e left right).1 - 1).toNat ≤ j → j < es.length →
        e < es.getD j 0))) := by
  intro fuel
  induction fuel with
  | zero => intro left right hf hlr _ _ _; omega
  | succ fuel ih =>
    intro left right hf hlr hre hlo hhi
    have hmidlt : left + (right - left) / 2 < right := by omega
    have hmidge : left ≤ left + (right - left) / 2 := by omega
    by_cases hpos : 0 < bt_default_cmp e (es.getD (left + (right - left) / 2) 0)
    · have hgt : es.getD (left + (right - left) / 2) 0 < e := (cmp_pos_iff _ _).mp hpos
      have hlo2 : ∀ j, j < left + (right - left) / 2 + 1 → es.getD j 0 < e := by
        intro j hj
        rcases Nat.lt_or_ge j (left + (right - left) / 2) with h | h
        · exact lt_trans (sorted_getD_lt es j _ hs h (by omega)) hgt
        · have : j = left + (right - left) / 2 := by omega
          rw [this]; exact hgt
      by_cases hrec : left + (right - left) / 2 + 1 < right
      · have hval : bsearchGo es e left right =
            ((bsearchGo es e (left + (right - left) / 2 + 1) right).1,
             (left + (right - left) / 2) ::
               (bsearchGo es e (left + (right - left) / 2 + 1) right).2.1,
             (bsearchGo es e (left + (right - left) / 2 + 1) right).2.2) := by
          rw [bsearchGo]
          simp only [if_pos hpos, dif_pos hrec]
        have hres := ih (left + (right - left) / 2 + 1) right (by omega) hrec hre hlo2 hhi
        rw [hval]
        refine ⟨?_, hres.2.1, hres.2.2⟩
        intro m hm
        simp only [List.mem_cons] at hm
        rcases hm with h | h
        · omega
        · have := hres.1 m h; omega
      · have hval : bsearchGo es e left right =
            (-((left + (right - left) / 2 + 1 : Nat) : Int) - 1,
             [left + (right - left) / 2],
             decide (left + (right - left) / 2 + 1 = right)) := by
          rw [bsearchGo]
          simp only [if_pos hpos, dif_neg hrec]
          push_cast
          ring_nf
        have hedge : left + (right - left) / 2 + 1 = right := by omega
        rw [hval]
        have htn : (-(-((left + (right - left) / 2 + 1 : Nat) : Int) - 1) - 1).toNat =
            left + (right - left) / 2 + 1 := by omega
        refine ⟨by intro m hm; simp at hm; omega, by simp [hedge], Or.inr ?_⟩
        refine ⟨by omega, ?_, ?_, ?_⟩
        · show (-(-((left + (right - left) / 2 + 1 : Nat) : Int) - 1) - 1).toNat ≤ es.length
          omega
        · show ∀ j, j < (-(-((left + (right - left) / 2 + 1 : Nat) : Int) - 1) - 1).toNat → _
          rw [htn]; exact hlo2
        · show ∀ j, (-(-((left + (right - left) / 2 + 1 : Nat) : Int) - 1) - 1).toNat ≤ j → _
          rw [htn, hedge]; exact hhi
    · by_cases hneg : bt_default_cmp e (es.getD (left + (right - left) / 2) 0) < 0
      · have hlt : e < es.getD (left + (right - left) / 2) 0 := (cmp_neg_iff _ _).mp hneg
        have hhi2 : ∀ j, left + (right - left) / 2 ≤ j → j < es.length → e < es.getD j 0 := by
          intro j hj hjl
          rcases Nat.lt_or_ge (left + (right - left) / 2) j with h | h
          · exact lt_trans hlt (sorted_getD_lt es _ j hs h hjl)
          · have : j = left + (right - left) / 2 := by omega
            rw [this]; exact hlt
        by_cases hrec : left < left + (right - left) / 2
        · have hval : bsearchGo es e left right =
              ((bsearchGo es e left (left + (right - left) / 2)).1,
               (left + (right - left) / 2) ::
                 (bsearchGo es e left (left + (right - left) / 2)).2.1,
               (bsearchGo es e left (left + (right - left) / 2)).2.2) := by
            rw [bsearchGo]
            simp only [if_neg hpos, if_pos hneg, dif_pos hrec]
          have hres := ih left (left + (right - left) / 2) (by omega) hrec (by omega) hlo hhi2
          rw [hval]
          refine ⟨?_, hres.2.1, hres.2.2⟩
          intro m hm
          simp only [List.mem_cons] at hm
          rcases hm with h | h
          · omega
          · have := hres.1 m h; omega
        · have hval : bsearchGo es e left right =
              (-(left : Int) - 1, [left + (right - left) / 2],
               decide (left = left + (right - left) / 2)) := by
            rw [bsearchGo]
            simp only [if_neg hpos, if_pos hneg, dif_neg hrec]
          have hedge : left = left + (right - left) / 2 := by omega
          rw [hval]
          have htn : (-(-(left : Int) - 1) - 1).toNat = left := by omega
          refine ⟨by intro m hm; simp at hm; omega, by simp [← hedge], Or.inr ?_⟩
          refine ⟨by omega, ?_, ?_, ?_⟩
          · show (-(-(left : Int) - 1) - 1).toNat ≤ es.length
            omega
          · show ∀ j, j < (-(-(left : Int) - 1) - 1).toNat → _
            rw [htn]; exact hlo
          · show ∀ j, (-(-(left : Int) - 1) - 1).toNat ≤ j → _
            rw [htn]
            intro j hj hjl
            exact hhi2 j (by omega) hjl
      · have hz : bt_default_cmp e (es.getD (left + (right - left) / 2) 0) = 0 := by omega
        have heq : e = es.getD (left + (right - left) / 2) 0 := (cmp_zero_iff _ _).mp hz
        have hval : bsearchGo es e left right =
            (((left + (right - left) / 2 : Nat) : Int), [left + (right - left) / 2], true) := by
          rw [bsearchGo]
          simp only [if_neg hpos, if_neg hneg]
        rw [hval]
        have htn : ((left + (right - left) / 2 : Nat) : Int).toNat =
            left + (right - left) / 2 := by omega
        refine ⟨by intro m hm; simp at hm; omega, rfl, Or.inl ⟨by omega, ?_, ?_⟩⟩
        · show ((left + (right - left) / 2 : Nat) : Int).toNat < es.length
          omega
        · rw [htn]; exact heq.symm

/-- Indices of `elems` read by `bt_node_bsearch(node, elem)`. -/
def bsearchReads (nd : BNode) (e : Int) : List Nat :=
  (bsearchGo nd.elems e 0 nd.elems.length).2.1

/-- Whether the `assert(left == right)` of `bt_node_bsearch(node, elem)` held. -/
def bsearchAssertOK (nd : BNode) (e : Int) : Bool :=
  (bsearchGo nd.elems e 0 nd.elems.length).2.2

theorem bsearchGo_safety (es : List Int) (e : Int) :
    ∀ fuel left right, right - left ≤ fuel → left < right →
    (∀ m ∈ (bsearchGo es e left right).2.1, left ≤ m ∧ m < right) ∧
    (bsearchGo es e left right).2.2 = true := by
  intro fuel
  induction fuel with
  | zero => intro left right hf hlr; omega
  | succ fuel ih =>
    intro left right hf hlr
    have hmidlt : left + (right - left) / 2 < right := by omega
    have hmidge : left ≤ left + (right - left) / 2 := by omega
    rw [bsearchGo]
    by_cases hpos : 0 < bt_default_cmp e (es.getD (left + (right - left) / 2) 0)
    · rw [if_pos hpos]
      by_cases hrec : left + (right - left) / 2 + 1 < right
      · rw [dif_pos hrec]
        have hres := ih (left + (right - left) / 2 + 1) right (by omega) hrec
        refine ⟨?_, hres.2⟩
        intro m hm
        simp only [List.mem_cons] at hm
        rcases hm with h | h
        · omega
        · have := hres.1 m h; omega
      · rw [dif_neg hrec]
        constructor
        · intro m hm; simp at hm; omega
        · simp; omega
    · rw [if_neg hpos]
      by_cases hneg : bt_default_cmp e (es.getD (left + (right - left) / 2) 0) < 0
      · rw [if_pos hneg]
        by_cases hrec : left < left + (right - left) / 2
        · rw [dif_pos hrec]
          have hres := ih left (left + (right - left) / 2) (by omega) hrec
          refine ⟨?_, hres.2⟩
          intro m hm
          simp only [List.mem_cons] at hm
          rcases hm with h | h
          · omega
          · have := hres.1 m h; omega
        · rw [dif_neg hrec]
          constructor
          · intro m hm; simp at hm; omega
          · simp; omega
      · rw [if_neg hneg]
        constructor
        · intro m hm; simp at hm; omega
        · rfl

theorem mem_of_getD (es : List Int) (j : Nat) (hj : j < es.length) :
    es.getD j 0 ∈ es := by
  rw [List.getD_eq_getElem es 0 hj]
  exact List.getElem_mem hj

theorem bt_node_bsearch_spec (nd : BNode) (e : Int)
    (hs : List.Pairwise (· < ·) nd.elems) (hne : nd.elems ≠ []) :
    (e ∈ nd.elems → 0 ≤ bt_node_bsearch nd e ∧
      (bt_node_bsearch nd e).toNat < nd.elems.length ∧
      nd.elems.getD (bt_node_bsearch nd e).toNat 0 = e) ∧
    (e ∉ nd.elems → bt_node_bsearch nd e < 0 ∧
      (-(bt_node_bsearch nd e) - 1).toNat ≤ nd.elems.length ∧
      (∀ j, j < (-(bt_node_bsearch nd e) - 1).toNat → nd.elems.getD j 0 < e) ∧
      (∀ j, (-(bt_node_bsearch nd e) - 1).toNat ≤ j → j < nd.elems.length →
        e < nd.elems.getD j 0)) := by
  have hlen : 0 < nd.elems.length := List.length_pos.mpr hne
  have hres := bsearchGo_spec nd.elems e hs nd.elems.length 0 nd.elems.length
    (by omega) (by omega) (by omega) (by omega) (by intro j h1 h2; omega)
  rcases hres.2.2 with hfound | hnf
  · constructor
    · intro _
      exact ⟨hfound.1, hfound.2.1, hfound.2.2⟩
    · intro habs
      exact absurd (hfound.2.2 ▸ mem_of_getD nd.elems _ hfound.2.1) habs
  · constructor
    · intro hmem
      exfalso
      rcases List.mem_iff_getElem.mp hmem with ⟨j, hj, hje⟩
      have hgd : nd.elems.getD j 0 = e := by
        rw [List.getD_eq_getElem nd.elems 0 hj]; exact hje
      rcases Nat.lt_or_ge j (-(bt_node_bsearch nd e) - 1).toNat with h | h
      · have := hnf.2.2.1 j h
        omega
      · have := hnf.2.2.2 j h hj
        omega
    · intro _
      exact hnf

theorem countP_lt_of_bounds (es : List Int) (e : Int) (p : Nat)
    (hp : p ≤ es.length)
    (hlo : ∀ j, j < p → es.getD j 0 < e)
    (hhi : ∀ j, p ≤ j → j < es.length → e < es.getD j 0) :
    es.countP (fun x => decide (x < e)) = p := by
  have hsplit : es = es.take p ++ es.drop p := (List.take_append_drop p es).symm
  rw [hsplit, List.countP_append]
  have h1 : (es.take p).countP (fun x => decide (x < e)) = (es.take p).length := by
    apply List.countP_eq_length.mpr
    intro x hx
    rcases List.mem_iff_getElem.mp hx with ⟨j, hj, hje⟩
    have hjp : j < p := by
      have := hj
      simp only [List.length_take] at this
      omega
    have hjl : j < es.length := by omega
    have : (es.take p)[j] = es[j] := by
      rw [List.getElem_take]
    have hgd : es.getD j 0 = x := by
      rw [List.getD_eq_getElem es 0 hjl, ← this, hje]
    have := hlo j hjp
    simp only [decide_eq_true_eq]
    omega
  have h2 : (es.drop p).countP (fun x => decide (x < e)) = 0 := by
    apply List.countP_eq_zero.mpr
    intro x hx
    rcases List.mem_iff_getElem.mp hx with ⟨j, hj, hje⟩
    have hjl : p + j < es.length := by
      have := hj
      simp only [List.length_drop] at this
      omega
    have : (es.drop p)[j] = es[p + j] := by
      rw [List.getElem_drop]
    have hgd : es.getD (p + j) 0 = x := by
      rw [List.getD_eq_getElem es 0 hjl, ← this, hje]
    have := hhi (p + j) (by omega) hjl
    simp only [decide_eq_true_eq]
    omega
  rw [h1, h2, List.length_take]
  omega

/-! ### Interleaving lemmas -/

/-- The tail of an in-order flattening after the subtree of child `i` has been
emitted: key `i` first, then the rest. -/
def eFirst (cs : List BNode) (es : List Int) : List Int :=
  match es with
  | [] => []
  | e :: es1 => e :: interleave cs es1

theorem interleave_cons (c : BNode) (cs : List BNode) (es : List Int) :
    interleave (c :: cs) es = inorder c ++ eFirst cs es := by
  cases c with
  | node es0 cs0 =>
    cases es with
    | nil => simp [interleave, eFirst, inorder, BNode.elems, BNode.children]
    | cons e es1 => simp [interleave, eFirst, inorder, BNode.elems, BNode.children]

theorem interleave_nil_left (es : List Int) : interleave [] es = es := by
  cases es <;> simp [interleave]

theorem interleave_take_drop (k : Nat) (cs : List BNode) (es : List Int)
    (hk : k ≤ es.length) :
    interleave cs es =
      interleave (cs.take k) (es.take k) ++ interleave (cs.drop k) (es.drop k) := by
  induction k generalizing cs es with
  | zero => simp [interleave_nil_left]
  | succ k ih =>
    cases es with
    | nil => simp at hk
    | cons e es1 =>
      cases cs with
      | nil =>
        simp only [List.take_nil, List.drop_nil, interleave_nil_left]
        simp
      | cons c cs1 =>
        cases c with
        | node es0 cs0 =>
          simp only [interleave, List.take_succ_cons, List.drop_succ_cons]
          rw [ih cs1 es1 (by simpa using hk)]
          simp

theorem interleave_focus (cs : List BNode) (es : List Int) (p : Nat) (c : BNode)
    (hc : cs[p]? = some c) (hp : p ≤ es.length) :
    interleave cs es =
      interleave (cs.take p) (es.take p) ++ inorder c ++
        eFirst (cs.drop (p + 1)) (es.drop p) := by
  have hpl : p < cs.length := by
    by_contra hx
    simp [List.getElem?_eq_none (by omega : cs.length ≤ p)] at hc
  have hcp : cs[p] = c := by
    have := List.getElem?_eq_getElem hpl
    rw [this] at hc
    exact (Option.some.injEq _ _).mp hc
  rw [interleave_take_drop p cs es hp]
  rw [← List.getElem_cons_drop cs p hpl, hcp, interleave_cons]
  simp

theorem interleave_balanced_concat (cs : List BNode) (es : List Int) (m : Int)
    (h : cs.length = es.length + 1) :
    interleave cs (es ++ [m]) = interleave cs es ++ [m] := by
  induction cs generalizing es with
  | nil => simp at h
  | cons c cs1 ih =>
    cases c with
    | node es0 cs0 =>
      cases es with
      | nil =>
        have : cs1 = [] := by simpa using h
        subst this
        simp [interleave, interleave_nil_left]
      | cons e es1 =>
        simp only [List.cons_append, interleave]
        rw [ih es1 (by simpa using h)]
        simp

theorem sublist_interleave (cs : List BNode) (es : List Int) :
    es.Sublist (interleave cs es) := by
  induction cs generalizing es with
  | nil => rw [interleave_nil_left]
  | cons c cs1 ih =>
    cases c with
    | node es0 cs0 =>
      cases es with
      | nil => simp
      | cons e es1 =>
        simp only [interleave]
        have h1 : (e :: es1).Sublist (e :: interleave cs1 es1) :=
          List.Sublist.cons₂ e (ih es1)
        exact h1.trans (List.sublist_append_right _ _)

theorem getLast?_interleave_balanced (cs : List BNode) (es : List Int)
    (h : cs.length = es.length) (hne : es ≠ []) :
    (interleave cs es).getLast? = es.getLast? := by
  induction cs generalizing es with
  | nil =>
    rw [interleave_nil_left]
  | cons c cs1 ih =>
    cases c with
    | node es0 cs0 =>
      cases es with
      | nil => simp at h
      | cons e es1 =>
        simp only [interleave]
        cases es1 with
        | nil =>
          have : cs1 = [] := by simpa using h
          subst this
          simp [interleave, interleave_nil_left]
        | cons e2 es2 =>
          have hsub := sublist_interleave cs1 (e2 :: es2)
          have hne2 : interleave cs1 (e2 :: es2) ≠ [] := by
            intro hx
            rw [hx] at hsub
            exact absurd (List.sublist_nil.mp hsub) (by simp)
          rw [List.getLast?_append_of_ne_nil _ (by simp)]
          have hstep : (e :: interleave cs1 (e2 :: es2)).getLast? =
              (interleave cs1 (e2 :: es2)).getLast? := by
            cases hx : interleave cs1 (e2 :: es2) with
            | nil => exact absurd hx hne2
            | cons b bs => simp [List.getLast?_cons_cons]
          rw [hstep, ih (e2 :: es2) (by simpa using h) (by simp)]
          simp [List.getLast?_cons_cons]

/-! ### List helpers -/

theorem insertIdx_eq_take_cons_drop {α : Type} (l : List α) (n : Nat) (a : α)
    (h : n ≤ l.length) :
    l.insertIdx n a = l.take n ++ a :: l.drop n := by
  induction n generalizing l with
  | zero => simp [List.insertIdx_zero]
  | succ n ih =>
    cases l with
    | nil => simp at h
    | cons b bs =>
      simp only [List.insertIdx_succ_cons, List.take_succ_cons, List.drop_succ_cons,
        List.cons_append]
      rw [ih bs (by simpa using h)]

theorem set_self_of_getElem {α : Type} (l : List α) (n : Nat) (a : α)
    (h : l[n]? = some a) :
    l.set n a = l := by
  have hn : n < l.length := by
    by_contra hx
    simp [List.getElem?_eq_none (by omega : l.length ≤ n)] at h
  have ha : l[n] = a := by
    have := List.getElem?_eq_getElem hn
    rw [this] at h
    exact (Option.some.injEq _ _).mp h
  rw [List.set_eq_take_cons_drop a hn, ← ha]
  exact (List.getElem_cons_drop l n hn) ▸ List.take_append_drop n l

theorem getElem?_set_self {α : Type} (l : List α) (n : Nat) (a : α) (h : n < l.length) :
    (l.set n a)[n]? = some a := by
  rw [List.getElem?_eq_getElem (by simpa using h)]
  simp [List.getElem_set_self]

theorem take_getLast (es : List Int) (p : Nat) (hp1 : 1 ≤ p) (hp2 : p ≤ es.length) :
    (es.take p).getLast? = some (es.getD (p - 1) 0) := by
  have hp3 : p - 1 < es.length := by omega
  have : es.take p = es.take (p - 1) ++ [es[p - 1]] := by
    have := List.take_concat_get' es (p - 1) hp3
    rw [this]
    congr 1
    omega
  rw [this, List.getLast?_concat, List.getD_eq_getElem es 0 hp3]

theorem pairwise_lt_of_getLast (l : List Int) (m e : Int)
    (hp : List.Pairwise (· < ·) l) (hl : l.getLast? = some m) (hm : m < e) :
    ∀ x ∈ l, x < e := by
  have hne : l ≠ [] := by
    intro hx
    rw [hx] at hl
    simp at hl
  have hlast : l.getLast hne = m := by
    have := List.getLast?_eq_getLast l hne
    rw [this] at hl
    exact (Option.some.injEq _ _).mp hl
  have hdec : l.dropLast ++ [m] = l := by
    rw [← hlast]
    exact List.dropLast_concat_getLast hne
  intro x hx
  rw [← hdec] at hx hp
  rcases List.mem_append.mp hx with h | h
  · have := (List.pairwise_append.mp hp).2.2 x h m (by simp)
    omega
  · simp at h
    omega

theorem pairwise_gt_of_head (l : List Int) (m e : Int) (rest : List Int)
    (hp : List.Pairwise (· < ·) (m :: rest)) (hl : l = m :: rest) (hm : e < m) :
    ∀ x ∈ l, e < x := by
  subst hl
  intro x hx
  rcases List.mem_cons.mp hx with h | h
  · omega
  · have := (List.pairwise_cons.mp hp).1 x h
    omega

/-! ### Structural invariants -/

/-- Leafness is uniform; an internal node with `n` keys has `n+1` children. -/
inductive ShapeOK : BNode → Prop
  | ok : ∀ es cs, (cs = [] ∨ cs.length = es.length + 1) →
      (∀ c ∈ cs, ShapeOK c) → ShapeOK (.node es cs)

/-- Height-uniform structure: all leaves at depth `h`; every node below the
top has `n+1` children and every child key count lies in `[2, 4]`
(`[factor, 2·factor]`). -/
def Good : Nat → BNode → Prop
  | 0, nd => nd.children = []
  | h + 1, nd => nd.children.length = nd.elems.length + 1 ∧
      ∀ c ∈ nd.children, Good h c ∧ 2 ≤ c.elems.length ∧ c.elems.length ≤ 4

theorem Good.shape (h : Nat) (nd : BNode) (hg : Good h nd) : ShapeOK nd := by
  induction h generalizing nd with
  | zero =>
    cases nd with
    | node es cs =>
      simp only [Good, BNode.children] at hg
      exact ShapeOK.ok es cs (Or.inl hg) (by rw [hg]; intro c hc; simp at hc)
  | succ h ih =>
    cases nd with
    | node es cs =>
      simp only [Good, BNode.children, BNode.elems] at hg
      exact ShapeOK.ok es cs (Or.inr hg.1) (fun c hc => ih c (hg.2 c hc).1)

/-! ### Split lemmas -/

theorem bt_split_node_eq (parent : BNode) (idx : Nat) (child : BNode)
    (hc : parent.children[idx]? = some child) :
    bt_split_node parent idx =
      (⟨parent.elems,
        (parent.children.set idx ⟨child.elems.take 2, child.children.take (2 + 1)⟩).insertIdx
          (idx + 1)
          ⟨child.elems.drop (2 + 1),
           if child.children.isEmpty then [] else child.children.drop (2 + 1)⟩⟩,
       child.elems.getD 2 0) := by
  unfold bt_split_node
  rw [hc]

theorem split_inorder (es : List Int) (cs : List BNode) (hlen : es.length = 5)
    (hshape : cs = [] ∨ cs.length = 6) :
    inorder ⟨es, cs⟩ =
      inorder ⟨es.take 2, cs.take (2 + 1)⟩ ++
        es.getD 2 0 ::
          inorder ⟨es.drop (2 + 1), if cs.isEmpty then [] else cs.drop (2 + 1)⟩ := by
  have h2 : (2 : Nat) < es.length := by omega
  have hgd : es.getD 2 0 = es[2] := List.getD_eq_getElem es 0 h2
  rcases hshape with hleaf | hint
  · subst hleaf
    simp only [inorder, BNode.elems, BNode.children, List.take_nil, List.isEmpty_nil,
      if_pos rfl, interleave_nil_left]
    have hsplit : es = es.take 2 ++ es.drop 2 := (List.take_append_drop 2 es).symm
    have hdrop : es.drop 2 = es[2] :: es.drop 3 := (List.getElem_cons_drop es 2 h2).symm
    conv_lhs => rw [hsplit, hdrop]
    rw [hgd]
    simp [interleave_nil_left]
  · have hne : ¬cs.isEmpty := by
      cases cs with
      | nil => simp at hint
      | cons a l => simp
    simp only [inorder, BNode.elems, BNode.children, if_neg hne]
    rw [interleave_take_drop 3 cs es (by omega)]
    have htk : es.take 3 = es.take 2 ++ [es[2]] := (List.take_concat_get' es 2 h2).symm
    rw [htk, interleave_balanced_concat (cs.take 3) (es.take 2) es[2]
      (by simp [List.length_take] <;> omega)]
    rw [hgd]
    simp

theorem split_good (h : Nat) (es : List Int) (cs : List BNode)
    (hg : Good h ⟨es, cs⟩) (hlen : es.length = 5) :
    Good h ⟨es.take 2, cs.take (2 + 1)⟩ ∧
    Good h ⟨es.drop (2 + 1), if cs.isEmpty then [] else cs.drop (2 + 1)⟩ := by
  cases h with
  | zero =>
    simp only [Good, BNode.children] at hg ⊢
    rw [hg]
    simp
  | succ h =>
    simp only [Good, BNode.children, BNode.elems] at hg ⊢
    have hl : cs.length = es.length + 1 := hg.1
    have hne : ¬cs.isEmpty := by
      cases hx : cs with
      | nil => rw [hx] at hl; simp at hl
      | cons a l => simp
    rw [if_neg hne]
    refine ⟨⟨?_, ?_⟩, ⟨?_, ?_⟩⟩
    · simp only [List.length_take]; omega
    · intro c hc
      exact hg.2 c (List.mem_of_mem_take hc)
    · simp only [List.length_drop]; omega
    · intro c hc
      exact hg.2 c (List.mem_of_mem_drop hc)

/-! ### Sorted insertion -/

theorem pairwise_insert_middle (A B : List Int) (e : Int)
    (hs : List.Pairwise (· < ·) (A ++ B))
    (hA : ∀ a ∈ A, a < e) (hB : ∀ b ∈ B, e < b) :
    List.Pairwise (· < ·) (A ++ e :: B) := by
  rw [List.pairwise_append] at hs ⊢
  refine ⟨hs.1, ?_, ?_⟩
  · rw [List.pairwise_cons]
    exact ⟨hB, hs.2.1⟩
  · intro a ha b hb
    rcases List.mem_cons.mp hb with h | h
    · subst h; exact hA a ha
    · exact hs.2.2 a ha b h

theorem BNode.eta (nd : BNode) : BNode.node nd.elems nd.children = nd := by
  cases nd with
  | node es cs => rfl

theorem BNode.elems_def (c : BNode) :
    (match c with | BNode.node es _ => es) = c.elems := rfl

theorem BNode.children_def (c : BNode) :
    (match c with | BNode.node _ cs => cs) = c.children := rfl

theorem BNode.elems_node (es : List Int) (cs : List BNode) :
    (BNode.node es cs).elems = es := rfl

theorem BNode.children_node (es : List Int) (cs : List BNode) :
    (BNode.node es cs).children = cs := rfl

/-! ### Insertion step equations -/

theorem bt_node_insert_found (nd : BNode) (e : Int) (prev : Option Int)
    (h : 0 ≤ bt_node_bsearch nd e) :
    bt_node_insert nd e prev =
      (⟨nd.elems.set (bt_node_bsearch nd e).toNat e, nd.children⟩, true,
       prev.map fun _ => nd.elems.getD (bt_node_bsearch nd e).toNat 0) := by
  rw [bt_node_insert]
  simp only [if_pos h]

theorem bt_node_insert_leaf (nd : BNode) (e : Int) (prev : Option Int)
    (h : ¬0 ≤ bt_node_bsearch nd e)
    (hc : nd.children[(-(bt_node_bsearch nd e) - 1).toNat]? = none) :
    bt_node_insert nd e prev =
      (⟨nd.elems.insertIdx (-(bt_node_bsearch nd e) - 1).toNat e, nd.children⟩,
       false, prev) := by
  rw [bt_node_insert]
  simp only [if_neg h]
  split
  · next child heq => rw [hc] at heq; exact absurd heq (by simp)
  · rfl

theorem bt_node_insert_internal (nd : BNode) (e : Int) (prev : Option Int) (c : BNode)
    (h : ¬0 ≤ bt_node_bsearch nd e)
    (hc : nd.children[(-(bt_node_bsearch nd e) - 1).toNat]? = some c) :
    bt_node_insert nd e prev =
      (if (bt_node_insert c e prev).1.elems.length ≤ 2 * 2 then
        (⟨nd.elems,
          nd.children.set (-(bt_node_bsearch nd e) - 1).toNat (bt_node_insert c e prev).1⟩,
         (bt_node_insert c e prev).2.1, (bt_node_insert c e prev).2.2)
      else
        (⟨(bt_split_node
            ⟨nd.elems,
             nd.children.set (-(bt_node_bsearch nd e) - 1).toNat
               (bt_node_insert c e prev).1⟩
            (-(bt_node_bsearch nd e) - 1).toNat).1.elems.insertIdx
              (-(bt_node_bsearch nd e) - 1).toNat
              (bt_split_node
                ⟨nd.elems,
                 nd.children.set (-(bt_node_bsearch nd e) - 1).toNat
                   (bt_node_insert c e prev).1⟩
                (-(bt_node_bsearch nd e) - 1).toNat).2,
          (bt_split_node
            ⟨nd.elems,
             nd.children.set (-(bt_node_bsearch nd e) - 1).toNat
               (bt_node_insert c e prev).1⟩
            (-(bt_node_bsearch nd e) - 1).toNat).1.children⟩,
         false, (bt_node_insert c e prev).2.2)) := by
  rw [bt_node_insert]
  simp only [if_neg h]
  split
  · next child heq =>
      rw [hc] at heq
      have hcc : c = child := by
        have := (Option.some.injEq _ _).mp heq
        exact this
      subst hcc
      rfl
  · next heq => rw [hc] at heq; exact absurd heq (by simp)

/-! ### Bounds on in-order segments -/

theorem mem_take_lt (es : List Int) (p : Nat) (e : Int)
    (hlt : ∀ j, j < p → es.getD j 0 < e) :
    ∀ a ∈ es.take p, a < e := by
  intro a ha
  rcases List.mem_iff_getElem.mp ha with ⟨j, hj, hje⟩
  have hjp : j < p := by
    have := hj
    simp only [List.length_take] at this
    omega
  have hjl : j < es.length := by
    have := hj
    simp only [List.length_take] at this
    omega
  have : (es.take p)[j] = es[j] := by rw [List.getElem_take]
  have hgd : es.getD j 0 = a := by
    rw [List.getD_eq_getElem es 0 hjl, ← this, hje]
  have := hlt j hjp
  omega

theorem mem_drop_gt (es : List Int) (p : Nat) (e : Int)
    (hgt : ∀ j, p ≤ j → j < es.length → e < es.getD j 0) :
    ∀ b ∈ es.drop p, e < b := by
  intro b hb
  rcases List.mem_iff_getElem.mp hb with ⟨j, hj, hje⟩
  have hjl : p + j < es.length := by
    have := hj
    simp only [List.length_drop] at this
    omega
  have : (es.drop p)[j] = es[p + j] := by rw [List.getElem_drop]
  have hgd : es.getD (p + j) 0 = b := by
    rw [List.getD_eq_getElem es 0 hjl, ← this, hje]
  have := hgt (p + j) (by omega) hjl
  omega

theorem interleave_take_bound (cs : List BNode) (es : List Int) (p : Nat) (e : Int)
    (hp : p ≤ es.length) (hcs : p ≤ cs.length)
    (hsorted : List.Pairwise (· < ·) (interleave (cs.take p) (es.take p)))
    (hlt : ∀ j, j < p → es.getD j 0 < e) :
    ∀ x ∈ interleave (cs.take p) (es.take p), x < e := by
  cases p with
  | zero =>
    simp only [List.take_zero, interleave_nil_left]
    intro x hx
    simp at hx
  | succ p =>
    have hlast : (interleave (cs.take (p + 1)) (es.take (p + 1))).getLast? =
        (es.take (p + 1)).getLast? := by
      apply getLast?_interleave_balanced
      · rw [List.length_take, List.length_take, Nat.min_eq_left (by omega),
          Nat.min_eq_left (by omega)]
      · intro hx
        have := congrArg List.length hx
        rw [List.length_take, Nat.min_eq_left (by omega)] at this
        simp at this
    rw [take_getLast es (p + 1) (by omega) (by omega)] at hlast
    exact pairwise_lt_of_getLast _ _ e hsorted hlast
      (by have := hlt p (by omega); simpa using this)

theorem eFirst_bound (cs2 : List BNode) (es : List Int) (p : Nat) (e : Int)
    (hsorted : List.Pairwise (· < ·) (eFirst cs2 (es.drop p)))
    (hgt : ∀ j, p ≤ j → j < es.length → e < es.getD j 0) :
    ∀ x ∈ eFirst cs2 (es.drop p), e < x := by
  cases hdp : es.drop p with
  | nil => simp [eFirst]
  | cons m rest =>
    have hplen : p < es.length := by
      by_contra hx
      rw [List.drop_eq_nil_of_le (by omega)] at hdp
      exact absurd hdp (by simp)
    have hm : es.getD p 0 = m := by
      have h1 : es[p] :: es.drop (p + 1) = es.drop p := List.getElem_cons_drop es p hplen
      rw [hdp] at h1
      have := (List.cons.injEq _ _ _ _).mp h1
      rw [List.getD_eq_getElem es 0 hplen, this.1]
    have hem : e < m := by
      have := hgt p (by omega) hplen
      omega
    rw [hdp] at hsorted
    simp only [eFirst] at hsorted ⊢
    intro x hx
    rcases List.mem_cons.mp hx with h | h
    · omega
    · have := (List.pairwise_cons.mp hsorted).1 x h
      omega

/-! ### Focus decompositions for modified child lists -/

theorem interleave_set_focus (cs : List BNode) (es : List Int) (p : Nat) (c1 : BNode)
    (hp : p ≤ es.length) (hplt : p < cs.length) :
    interleave (cs.set p c1) es =
      interleave (cs.take p) (es.take p) ++ inorder c1 ++
        eFirst (cs.drop (p + 1)) (es.drop p) := by
  have hrep : cs.set p c1 = cs.take p ++ c1 :: cs.drop (p + 1) :=
    List.set_eq_take_cons_drop c1 hplt
  have hlt : (cs.set p c1)[p]? = some c1 := getElem?_set_self cs p c1 hplt
  have htake : (cs.set p c1).take p = cs.take p := by
    rw [hrep, List.take_append_eq_append_take]
    have h0 : (cs.take p).take p = cs.take p := by
      rw [List.take_take, Nat.min_self]
    rw [h0]
    have hlen : (cs.take p).length = p := by
      rw [List.length_take, Nat.min_eq_left (by omega)]
    rw [hlen]
    simp
  have hdrop : (cs.set p c1).drop (p + 1) = cs.drop (p + 1) := by
    rw [hrep, List.drop_append_eq_append_drop]
    have hlen : (cs.take p).length = p := by
      rw [List.length_take, Nat.min_eq_left (by omega)]
    rw [hlen]
    rw [List.drop_eq_nil_of_le (by omega : (cs.take p).length ≤ p + 1)]
    simp
  have := interleave_focus (cs.set p c1) es p c1 hlt hp
  rw [this, htake, hdrop]

theorem interleave_split_insert (cs : List BNode) (es : List Int) (p : Nat)
    (cL sib : BNode) (med : Int) (hp : p ≤ es.length) (hplt : p < cs.length) :
    interleave ((cs.set p cL).insertIdx (p + 1) sib) (es.insertIdx p med) =
      interleave (cs.take p) (es.take p) ++ inorder cL ++
        med :: (inorder sib ++ eFirst (cs.drop (p + 1)) (es.drop p)) := by
  have hrep : cs.set p cL = cs.take p ++ cL :: cs.drop (p + 1) :=
    List.set_eq_take_cons_drop cL hplt
  have hlen : (cs.take p).length = p := by
    rw [List.length_take, Nat.min_eq_left (by omega)]
  have hXX : (cs.set p cL).insertIdx (p + 1) sib =
      cs.take p ++ cL :: sib :: cs.drop (p + 1) := by
    rw [insertIdx_eq_take_cons_drop _ _ _ (by simp [List.length_set]; omega)]
    have htk : (cs.set p cL).take (p + 1) = cs.take p ++ [cL] := by
      rw [hrep, List.take_append_eq_append_take, hlen]
      have h0 : (cs.take p).take (p + 1) = cs.take p := by
        rw [List.take_take, Nat.min_eq_right (by omega)]
      rw [h0]
      simp
    have hdr : (cs.set p cL).drop (p + 1) = cs.drop (p + 1) := by
      rw [hrep, List.drop_append_eq_append_drop, hlen]
      rw [List.drop_eq_nil_of_le (by omega : (cs.take p).length ≤ p + 1)]
      simp
    rw [htk, hdr]
    simp
  have hes : es.insertIdx p med = es.take p ++ med :: es.drop p :=
    insertIdx_eq_take_cons_drop es p med hp
  rw [hXX, hes]
  have hlen2 : (es.take p).length = p := by
    rw [List.length_take, Nat.min_eq_left (by omega)]
  have hstep : interleave (cs.take p ++ cL :: sib :: cs.drop (p + 1))
      (es.take p ++ med :: es.drop p) =
      interleave (cs.take p) (es.take p) ++
        interleave (cL :: sib :: cs.drop (p + 1)) (med :: es.drop p) := by
    rw [interleave_take_drop p (cs.take p ++ cL :: sib :: cs.drop (p + 1))
      (es.take p ++ med :: es.drop p) (by simp [List.length_append]; omega)]
    congr 1
    · congr 1
      · rw [List.take_append_eq_append_take, hlen]
        have h0 : (cs.take p).take p = cs.take p := by rw [List.take_take, Nat.min_self]
        rw [h0]
        simp
      · rw [List.take_append_eq_append_take, hlen2]
        have h0 : (es.take p).take p = es.take p := by rw [List.take_take, Nat.min_self]
        rw [h0]
        simp
    · congr 1
      · rw [List.drop_append_eq_append_drop, hlen]
        rw [List.drop_eq_nil_of_le (by omega : (cs.take p).length ≤ p)]
        simp
      · rw [List.drop_append_eq_append_drop, hlen2]
        rw [List.drop_eq_nil_of_le (by omega : (es.take p).length ≤ p)]
        simp
  rw [hstep]
  simp [interleave_cons, eFirst]

theorem shape_children (es : List Int) (cs : List BNode) (h : ShapeOK ⟨es, cs⟩) :
    cs = [] ∨ cs.length = es.length + 1 := by
  cases h with
  | ok _ _ h1 _ => exact h1

theorem bt_node_insert_spec_found (nd : BNode) (e : Int) (prev : Option Int)
    (hs_es : List.Pairwise (· < ·) nd.elems) (hne : nd.elems ≠ []) (hmem : e ∈ nd.elems) :
    bt_node_insert nd e prev = (nd, true, prev.map fun _ => e) := by
  obtain ⟨h0, hlt, hgd⟩ := (bt_node_bsearch_spec nd e hs_es hne).1 hmem
  rw [bt_node_insert_found nd e prev h0]
  have hget : nd.elems[(bt_node_bsearch nd e).toNat]? = some e := by
    rw [List.getElem?_eq_getElem hlt]
    rw [List.getD_eq_getElem nd.elems 0 hlt] at hgd
    rw [hgd]
  rw [set_self_of_getElem nd.elems _ e hget, hgd, BNode.eta]

theorem bt_node_insert_internal_nosplit (nd : BNode) (e : Int) (prev : Option Int)
    (c c1 : BNode) (rep : Bool) (pr : Option Int)
    (h : ¬0 ≤ bt_node_bsearch nd e)
    (hc : nd.children[(-(bt_node_bsearch nd e) - 1).toNat]? = some c)
    (hrec : bt_node_insert c e prev = (c1, rep, pr))
    (hlen : c1.elems.length ≤ 2 * 2) :
    bt_node_insert nd e prev =
      (⟨nd.elems, nd.children.set (-(bt_node_bsearch nd e) - 1).toNat c1⟩, rep, pr) := by
  rw [bt_node_insert_internal nd e prev c h hc, hrec]
  simp [hlen]

theorem bt_node_insert_internal_split (nd : BNode) (e : Int) (prev : Option Int)
    (c c1 : BNode) (rep : Bool) (pr : Option Int)
    (h : ¬0 ≤ bt_node_bsearch nd e)
    (hc : nd.children[(-(bt_node_bsearch nd e) - 1).toNat]? = some c)
    (hrec : bt_node_insert c e prev = (c1, rep, pr))
    (hlen : ¬c1.elems.length ≤ 2 * 2) :
    bt_node_insert nd e prev =
      (⟨(bt_split_node
          ⟨nd.elems, nd.children.set (-(bt_node_bsearch nd e) - 1).toNat c1⟩
          (-(bt_node_bsearch nd e) - 1).toNat).1.elems.insertIdx
            (-(bt_node_bsearch nd e) - 1).toNat
            (bt_split_node
              ⟨nd.elems, nd.children.set (-(bt_node_bsearch nd e) - 1).toNat c1⟩
              (-(bt_node_bsearch nd e) - 1).toNat).2,
        (bt_split_node
          ⟨nd.elems, nd.children.set (-(bt_node_bsearch nd e) - 1).toNat c1⟩
          (-(bt_node_bsearch nd e) - 1).toNat).1.children⟩,
       false, pr) := by
  rw [bt_node_insert_internal nd e prev c h hc, hrec]
  simp [hlen]

theorem bt_node_insert_spec (e : Int) (prev : Option Int) (h : Nat) :
    ∀ nd : BNode, Good h nd → 1 ≤ nd.elems.length → nd.elems.length ≤ 4 →
    List.Pairwise (· < ·) (inorder nd) →
    (e ∈ inorder nd → bt_node_insert nd e prev = (nd, true, prev.map fun _ => e)) ∧
    (e ∉ inorder nd →
      ∃ nd1, bt_node_insert nd e prev = (nd1, false, prev) ∧ Good h nd1 ∧
        nd.elems.length ≤ nd1.elems.length ∧ nd1.elems.length ≤ nd.elems.length + 1 ∧
        ∃ A B, inorder nd = A ++ B ∧ inorder nd1 = A ++ e :: B ∧
          (∀ a ∈ A, a < e) ∧ (∀ b ∈ B, e < b)) := by
  induction h with
  | zero =>
    intro nd hg hn1 hn4 hs
    cases nd with
    | node es cs =>
      simp only [Good, BNode.children] at hg
      subst hg
      simp only [BNode.elems] at hn1 hn4
      have hio : inorder (BNode.node es []) = es := by
        simp [inorder, BNode.elems, BNode.children, interleave_nil_left]
      rw [hio] at hs ⊢
      have hne : es ≠ [] := by
        intro hx
        rw [hx] at hn1
        simp at hn1
      constructor
      · intro hmem
        exact bt_node_insert_spec_found _ e prev hs hne hmem
      · intro hnmem
        have hnf := (bt_node_bsearch_spec (BNode.node es []) e hs hne).2 hnmem
        simp only [BNode.elems] at hnf
        have hval := bt_node_insert_leaf (BNode.node es []) e prev (by omega)
          (by simp [BNode.children])
        refine ⟨⟨es.insertIdx (-(bt_node_bsearch (BNode.node es []) e) - 1).toNat e, []⟩,
          hval, by simp [Good, BNode.children], ?_, ?_,
          es.take (-(bt_node_bsearch (BNode.node es []) e) - 1).toNat,
          es.drop (-(bt_node_bsearch (BNode.node es []) e) - 1).toNat,
          (List.take_append_drop _ es).symm, ?_, ?_, ?_⟩
        · simp only [BNode.elems]
          rw [List.length_insertIdx _ _ hnf.2.1]
          omega
        · simp only [BNode.elems]
          rw [List.length_insertIdx _ _ hnf.2.1]
        · simp only [inorder, BNode.elems, BNode.children, interleave_nil_left]
          exact insertIdx_eq_take_cons_drop es _ e hnf.2.1
        · exact mem_take_lt es _ e hnf.2.2.1
        · exact mem_drop_gt es _ e hnf.2.2.2
  | succ h ih =>
    intro nd hg hn1 hn4 hs
    cases nd with
    | node es cs =>
      simp only [Good, BNode.children, BNode.elems] at hg
      simp only [BNode.elems_def, BNode.children_def] at hg
      obtain ⟨hcl, hcs⟩ := hg
      simp only [BNode.elems] at hn1 hn4
      have hioeq : inorder (BNode.node es cs) = interleave cs es := by
        simp [inorder, BNode.elems, BNode.children]
      have hne : es ≠ [] := by
        intro hx
        rw [hx] at hn1
        simp at hn1
      have hsint : List.Pairwise (· < ·) (interleave cs es) := by
        rw [hioeq] at hs
        exact hs
      have hes : List.Pairwise (· < ·) es :=
        List.Pairwise.sublist (sublist_interleave cs es) hsint
      by_cases hmemes : e ∈ es
      · have hfound := bt_node_insert_spec_found (BNode.node es cs) e prev hes hne hmemes
        constructor
        · intro _
          exact hfound
        · intro hnmem
          exfalso
          apply hnmem
          rw [hioeq]
          exact (sublist_interleave cs es).subset hmemes
      · have hnf := (bt_node_bsearch_spec (BNode.node es cs) e hes hne).2 hmemes
        simp only [BNode.elems] at hnf
        have hneg : ¬0 ≤ bt_node_bsearch (BNode.node es cs) e := by omega
        have hple : (-(bt_node_bsearch (BNode.node es cs) e) - 1).toNat ≤ es.length :=
          hnf.2.1
        have hplt : (-(bt_node_bsearch (BNode.node es cs) e) - 1).toNat < cs.length := by
          omega
        have hcp : cs[(-(bt_node_bsearch (BNode.node es cs) e) - 1).toNat]? =
            some cs[(-(bt_node_bsearch (BNode.node es cs) e) - 1).toNat] :=
          List.getElem?_eq_getElem hplt
        have hfocus := interleave_focus cs es
          (-(bt_node_bsearch (BNode.node es cs) e) - 1).toNat
          cs[(-(bt_node_bsearch (BNode.node es cs) e) - 1).toNat] hcp hple
        have hsfoc : List.Pairwise (· < ·)
            ((interleave (cs.take (-(bt_node_bsearch (BNode.node es cs) e) - 1).toNat)
                (es.take (-(bt_node_bsearch (BNode.node es cs) e) - 1).toNat) ++
              inorder cs[(-(bt_node_bsearch (BNode.node es cs) e) - 1).toNat]) ++
              eFirst (cs.drop ((-(bt_node_bsearch (BNode.node es cs) e) - 1).toNat + 1))
                (es.drop (-(bt_node_bsearch (BNode.node es cs) e) - 1).toNat)) := by
          rw [← hfocus]
          exact hsint
        have hparts1 := List.pairwise_append.mp hsfoc
        have hparts2 := List.pairwise_append.mp hparts1.1
        have hpre_lt := interleave_take_bound cs es
          (-(bt_node_bsearch (BNode.node es cs) e) - 1).toNat e hple (by omega)
          hparts2.1 hnf.2.2.1
        have hsuf_gt := eFirst_bound
          (cs.drop ((-(bt_node_bsearch (BNode.node es cs) e) - 1).toNat + 1)) es
          (-(bt_node_bsearch (BNode.node es cs) e) - 1).toNat e hparts1.2.1 hnf.2.2.2
        obtain ⟨hgc, hc2, hc4⟩ :=
          hcs cs[(-(bt_node_bsearch (BNode.node es cs) e) - 1).toNat]
            (List.getElem_mem hplt)
        have ihc := ih cs[(-(bt_node_bsearch (BNode.node es cs) e) - 1).toNat]
          hgc (by omega) hc4 hparts2.2.1
        have hccs : (BNode.node es cs).children[(-(bt_node_bsearch (BNode.node es cs) e) -
            1).toNat]? = some cs[(-(bt_node_bsearch (BNode.node es cs) e) - 1).toNat] := by
          simpa [BNode.children] using hcp
        by_cases hmemc : e ∈ inorder cs[(-(bt_node_bsearch (BNode.node es cs) e) - 1).toNat]
        · have hrec := ihc.1 hmemc
          have hval := bt_node_insert_internal_nosplit (BNode.node es cs) e prev
            cs[(-(bt_node_bsearch (BNode.node es cs) e) - 1).toNat]
            cs[(-(bt_node_bsearch (BNode.node es cs) e) - 1).toNat]
            true (prev.map fun _ => e) hneg hccs hrec (by omega)
          have hset : cs.set (-(bt_node_bsearch (BNode.node es cs) e) - 1).toNat
              cs[(-(bt_node_bsearch (BNode.node es cs) e) - 1).toNat] = cs :=
            set_self_of_getElem cs _ _ hcp
          constructor
          · intro _
            rw [hval]
            simp only [BNode.children_node, BNode.elems_node, BNode.children]
            rw [hset]
          · intro hnmem
            exfalso
            apply hnmem
            rw [hioeq, hfocus]
            simp only [List.append_assoc, List.mem_append]
            exact Or.inr (Or.inl hmemc)
        · obtain ⟨c1, hrec, hgc1, hlc1a, hlc1b, A_c, B_c, hAB1, hAB2, hA_lt, hB_gt⟩ :=
            ihc.2 hmemc
          have hnmem_nd : e ∉ inorder (BNode.node es cs) := by
            rw [hioeq, hfocus]
            intro hx
            simp only [List.append_assoc, List.mem_append] at hx
            rcases hx with hx | hx | hx
            · have := hpre_lt e hx
              omega
            · exact hmemc hx
            · have := hsuf_gt e hx
              omega
          constructor
          · intro hx
            exact absurd hx hnmem_nd
          · intro _
            by_cases hovf : c1.elems.length ≤ 2 * 2
            · have hval := bt_node_insert_internal_nosplit (BNode.node es cs) e prev
                cs[(-(bt_node_bsearch (BNode.node es cs) e) - 1).toNat]
                c1 false prev hneg hccs hrec hovf
              refine ⟨_, hval, ?_, ?_, ?_,
                interleave (cs.take (-(bt_node_bsearch (BNode.node es cs) e) - 1).toNat)
                  (es.take (-(bt_node_bsearch (BNode.node es cs) e) - 1).toNat) ++ A_c,
                B_c ++ eFirst
                  (cs.drop ((-(bt_node_bsearch (BNode.node es cs) e) - 1).toNat + 1))
                  (es.drop (-(bt_node_bsearch (BNode.node es cs) e) - 1).toNat),
                ?_, ?_, ?_, ?_⟩
              · simp only [Good, BNode.children_node, BNode.elems_node]
                constructor
                · rw [List.length_set]
                  exact hcl
                · intro c hcmem
                  rcases List.mem_or_eq_of_mem_set hcmem with hold | hnew
                  · exact hcs c hold
                  · subst hnew
                    exact ⟨hgc1, by omega, hovf⟩
              · simp only [BNode.elems]
                omega
              · simp only [BNode.elems]
                omega
              · rw [hioeq, hfocus, hAB1]
                simp [List.append_assoc]
              · simp only [inorder, BNode.elems, BNode.children]
                rw [interleave_set_focus cs es _ c1 hple hplt, hAB2]
                simp [List.append_assoc]
              · intro a ha
                rcases List.mem_append.mp ha with hx | hx
                · exact hpre_lt a hx
                · exact hA_lt a hx
              · intro b hb
                rcases List.mem_append.mp hb with hx | hx
                · exact hB_gt b hx
                · exact hsuf_gt b hx
            · have hlc5 : c1.elems.length = 5 := by omega
              have hset_get : (cs.set (-(bt_node_bsearch (BNode.node es cs) e) - 1).toNat
                  c1)[(-(bt_node_bsearch (BNode.node es cs) e) - 1).toNat]? = some c1 :=
                getElem?_set_self cs _ c1 hplt
              have hval0 := bt_node_insert_internal_split (BNode.node es cs) e prev
                cs[(-(bt_node_bsearch (BNode.node es cs) e) - 1).toNat]
                c1 false prev hneg hccs hrec hovf
              have hsp := bt_split_node_eq
                ⟨(BNode.node es cs).elems,
                 (BNode.node es cs).children.set
                   (-(bt_node_bsearch (BNode.node es cs) e) - 1).toNat c1⟩
                (-(bt_node_bsearch (BNode.node es cs) e) - 1).toNat c1
                (by simpa [BNode.children] using hset_get)
              rw [hsp] at hval0
              simp only [BNode.elems_node, BNode.children_node] at hval0
              rw [List.set_set] at hval0
              have hshape1 := shape_children c1.elems c1.children
                (by rw [BNode.eta]; exact Good.shape h c1 hgc1)
              have hsi := split_inorder c1.elems c1.children hlc5
                (by rcases hshape1 with hx | hx
                    · exact Or.inl hx
                    · right; rw [hx, hlc5])
              rw [BNode.eta] at hsi
              have hsg := split_good h c1.elems c1.children (by rw [BNode.eta]; exact hgc1)
                hlc5
              have hcLlen : (c1.elems.take 2).length = 2 := by
                rw [List.length_take, hlc5]
                decide
              have hsiblen : (c1.elems.drop (2 + 1)).length = 2 := by
                rw [List.length_drop, hlc5]
              refine ⟨_, hval0, ?_, ?_, ?_,
                interleave (cs.take (-(bt_node_bsearch (BNode.node es cs) e) - 1).toNat)
                  (es.take (-(bt_node_bsearch (BNode.node es cs) e) - 1).toNat) ++ A_c,
                B_c ++ eFirst
                  (cs.drop ((-(bt_node_bsearch (BNode.node es cs) e) - 1).toNat + 1))
                  (es.drop (-(bt_node_bsearch (BNode.node es cs) e) - 1).toNat),
                ?_, ?_, ?_, ?_⟩
              · simp only [Good, BNode.children_node, BNode.elems_node]
                constructor
                · rw [List.length_insertIdx _ _ (by rw [List.length_set]; omega),
                    List.length_insertIdx _ _ (by omega), List.length_set]
                  omega
                · intro c hcmem
                  rw [List.mem_insertIdx (by rw [List.length_set]; omega)] at hcmem
                  rcases hcmem with hnew | hcmem
                  · subst hnew
                    refine ⟨hsg.2, ?_, ?_⟩ <;>
                      simp only [BNode.elems_node, hsiblen] <;> omega
                  · rcases List.mem_or_eq_of_mem_set hcmem with hold | hnew
                    · exact hcs c hold
                    · subst hnew
                      refine ⟨hsg.1, ?_, ?_⟩ <;>
                        simp only [BNode.elems_node, hcLlen] <;> omega
              · simp only [BNode.elems_node]
                rw [List.length_insertIdx _ _ (by omega)]
                omega
              · simp only [BNode.elems_node]
                rw [List.length_insertIdx _ _ (by omega)]
              · rw [hioeq, hfocus, hAB1]
                simp [List.append_assoc]
              · simp only [inorder, BNode.elems_node, BNode.children_node]
                rw [interleave_split_insert cs es _ _ _ _ hple hplt]
                have hkey : inorder (BNode.node (c1.elems.take 2)
                      (c1.children.take (2 + 1))) ++
                    c1.elems.getD 2 0 ::
                      inorder (BNode.node (c1.elems.drop (2 + 1))
                        (if c1.children.isEmpty then []
                         else c1.children.drop (2 + 1))) = A_c ++ e :: B_c := by
                  rw [← hsi]
                  exact hAB2
                calc interleave
                      (cs.take (-(bt_node_bsearch (BNode.node es cs) e) - 1).toNat)
                      (es.take (-(bt_node_bsearch (BNode.node es cs) e) - 1).toNat) ++
                    inorder (BNode.node (c1.elems.take 2) (c1.children.take (2 + 1))) ++
                    c1.elems.getD 2 0 ::
                      (inorder (BNode.node (c1.elems.drop (2 + 1))
                          (if c1.children.isEmpty then []
                           else c1.children.drop (2 + 1))) ++
                        eFirst (cs.drop
                          ((-(bt_node_bsearch (BNode.node es cs) e) - 1).toNat + 1))
                          (es.drop (-(bt_node_bsearch (BNode.node es cs) e) - 1).toNat))
                    = interleave
                        (cs.take (-(bt_node_bsearch (BNode.node es cs) e) - 1).toNat)
                        (es.take (-(bt_node_bsearch (BNode.node es cs) e) - 1).toNat) ++
                      ((inorder (BNode.node (c1.elems.take 2)
                          (c1.children.take (2 + 1))) ++
                        c1.elems.getD 2 0 ::
                          inorder (BNode.node (c1.elems.drop (2 + 1))
                            (if c1.children.isEmpty then []
                             else c1.children.drop (2 + 1)))) ++
                        eFirst (cs.drop
                          ((-(bt_node_bsearch (BNode.node es cs) e) - 1).toNat + 1))
                          (es.drop (-(bt_node_bsearch (BNode.node es cs) e) - 1).toNat)) := by
                      simp [List.append_assoc]
                  _ = interleave
                        (cs.take (-(bt_node_bsearch (BNode.node es cs) e) - 1).toNat)
                        (es.take (-(bt_node_bsearch (BNode.node es cs) e) - 1).toNat) ++
                      ((A_c ++ e :: B_c) ++
                        eFirst (cs.drop
                          ((-(bt_node_bsearch (BNode.node es cs) e) - 1).toNat + 1))
                          (es.drop (-(bt_node_bsearch (BNode.node es cs) e) - 1).toNat)) := by
                      rw [hkey]
                  _ = interleave
                        (cs.take (-(bt_node_bsearch (BNode.node es cs) e) - 1).toNat)
                        (es.take (-(bt_node_bsearch (BNode.node es cs) e) - 1).toNat) ++
                      A_c ++
                      e :: (B_c ++
                        eFirst (cs.drop
                          ((-(bt_node_bsearch (BNode.node es cs) e) - 1).toNat + 1))
                          (es.drop (-(bt_node_bsearch (BNode.node es cs) e) - 1).toNat)) := by
                      simp [List.append_assoc]
              · intro a ha
                rcases List.mem_append.mp ha with hx | hx
                · exact hpre_lt a hx
                · exact hA_lt a hx
              · intro b hb
                rcases List.mem_append.mp hb with hx | hx
                · exact hB_gt b hx
                · exact hsuf_gt b hx

/-! ### Tree-level insertion -/

theorem bt_insert_none (bt : BT) (e : Int) (prev : Option Int) (h : bt.root = none) :
    bt_insert bt e prev = (⟨some ⟨[e], []⟩, bt.size⟩, false, prev) := by
  unfold bt_insert
  rw [h]

theorem bt_insert_root_nosplit (bt : BT) (e : Int) (prev : Option Int)
    (r r1 : BNode) (rep : Bool) (pr : Option Int) (h : bt.root = some r)
    (hrec : bt_node_insert r e prev = (r1, rep, pr))
    (hlen : ¬2 * 2 < r1.elems.length) :
    bt_insert bt e prev = (⟨some r1, bt.size⟩, rep, pr) := by
  unfold bt_insert
  rw [h]
  simp only [hrec]
  simp [hlen]

theorem bt_insert_root_split (bt : BT) (e : Int) (prev : Option Int)
    (r r1 : BNode) (rep : Bool) (pr : Option Int) (h : bt.root = some r)
    (hrec : bt_node_insert r e prev = (r1, rep, pr))
    (hlen : 2 * 2 < r1.elems.length) :
    bt_insert bt e prev =
      (⟨some ⟨[(bt_split_node ⟨[], [r1]⟩ 0).2], (bt_split_node ⟨[], [r1]⟩ 0).1.children⟩,
        bt.size⟩, rep, pr) := by
  unfold bt_insert
  rw [h]
  simp only [hrec]
  simp [hlen]

/-- The internal invariant maintained between top-level operations. -/
def TreeInv (bt : BT) : Prop :=
  bt.root = none ∨
    ∃ r h, bt.root = some r ∧ Good h r ∧ 1 ≤ r.elems.length ∧ r.elems.length ≤ 4 ∧
      List.Pairwise (· < ·) (inorder r)

theorem bt_insert_spec (bt : BT) (e : Int) (prev : Option Int) (hinv : TreeInv bt) :
    TreeInv (bt_insert bt e prev).1 ∧
    (bt_insert bt e prev).1.size = bt.size ∧
    (e ∈ inorderBT bt → bt_insert bt e prev = (bt, true, prev.map fun _ => e)) ∧
    (e ∉ inorderBT bt →
      (bt_insert bt e prev).2.1 = false ∧ (bt_insert bt e prev).2.2 = prev ∧
      ∃ A B, inorderBT bt = A ++ B ∧
        inorderBT (bt_insert bt e prev).1 = A ++ e :: B ∧
        (∀ a ∈ A, a < e) ∧ (∀ b ∈ B, e < b)) := by
  rcases hinv with hroot | ⟨r, h, hroot, hg, h1, h4, hsort⟩
  · rw [bt_insert_none bt e prev hroot]
    have hio : inorderBT bt = [] := by
      unfold inorderBT
      rw [hroot]
    refine ⟨?_, rfl, ?_, ?_⟩
    · right
      exact ⟨⟨[e], []⟩, 0, rfl, by simp [Good, BNode.children_node],
        by simp [BNode.elems_node], by simp [BNode.elems_node], by
          simp [inorder, BNode.elems_node, BNode.children_node, interleave_nil_left]⟩
    · intro hmem
      rw [hio] at hmem
      simp at hmem
    · intro _
      refine ⟨rfl, rfl, [], [], by simp [hio], ?_, by simp, by simp⟩
      unfold inorderBT
      simp [inorder, BNode.elems_node, BNode.children_node, interleave_nil_left]
  · have hioBT : inorderBT bt = inorder r := by
      unfold inorderBT
      rw [hroot]
    have hspec := bt_node_insert_spec e prev h r hg h1 h4 hsort
    by_cases hmem : e ∈ inorder r
    · have hrec := hspec.1 hmem
      have hval := bt_insert_root_nosplit bt e prev r r true (prev.map fun _ => e)
        hroot hrec (by omega)
      have hbt : (⟨some r, bt.size⟩ : BT) = bt := by
        cases bt with
        | mk rt sz =>
          simp only at hroot ⊢
          rw [hroot]
      rw [hval, hbt]
      refine ⟨?_, rfl, ?_, ?_⟩
      · right
        exact ⟨r, h, hroot, hg, h1, h4, hsort⟩
      · intro _
        rfl
      · intro hnmem
        rw [hioBT] at hnmem
        exact absurd hmem hnmem
    · obtain ⟨r1, hrec, hg1, hl1, hl2, A, B, hAB1, hAB2, hAlt, hBgt⟩ := hspec.2 hmem
      have hs1 : List.Pairwise (· < ·) (inorder r1) := by
        rw [hAB2]
        rw [hAB1] at hsort
        exact pairwise_insert_middle A B e hsort hAlt hBgt
      by_cases hovf : 2 * 2 < r1.elems.length
      · have hlen5 : r1.elems.length = 5 := by omega
        have hval := bt_insert_root_split bt e prev r r1 false prev hroot hrec hovf
        have hsp := bt_split_node_eq ⟨[], [r1]⟩ 0 r1 (by simp [BNode.children_node])
        rw [hsp] at hval
        simp only [BNode.elems_node, BNode.children_node] at hval
        have hlist : (([r1].set 0 ⟨r1.elems.take 2, r1.children.take (2 + 1)⟩).insertIdx
            (0 + 1)
            ⟨r1.elems.drop (2 + 1),
             if r1.children.isEmpty then [] else r1.children.drop (2 + 1)⟩) =
            [⟨r1.elems.take 2, r1.children.take (2 + 1)⟩,
             ⟨r1.elems.drop (2 + 1),
              if r1.children.isEmpty then [] else r1.children.drop (2 + 1)⟩] := by
          simp [List.insertIdx]
        rw [hlist] at hval
        have hshape1 := shape_children r1.elems r1.children
          (by rw [BNode.eta]; exact Good.shape h r1 hg1)
        have hsi := split_inorder r1.elems r1.children hlen5
          (by rcases hshape1 with hx | hx
              · exact Or.inl hx
              · right; rw [hx, hlen5])
        rw [BNode.eta] at hsi
        have hsg := split_good h r1.elems r1.children (by rw [BNode.eta]; exact hg1) hlen5
        have hionew : inorder (BNode.node
            [(r1.elems.getD 2 0)]
            [⟨r1.elems.take 2, r1.children.take (2 + 1)⟩,
             ⟨r1.elems.drop (2 + 1),
              if r1.children.isEmpty then [] else r1.children.drop (2 + 1)⟩]) =
            inorder r1 := by
          simp only [inorder, BNode.elems_node, BNode.children_node]
          rw [interleave_cons]
          simp only [eFirst]
          rw [interleave_cons]
          simp only [eFirst, List.append_nil]
          rw [← hsi]
          simp [inorder]
        rw [hval]
        refine ⟨?_, rfl, ?_, ?_⟩
        · right
          refine ⟨_, h + 1, rfl, ?_, by simp [BNode.elems_node], by simp [BNode.elems_node],
            ?_⟩
          · simp only [Good, BNode.children_node, BNode.elems_node]
            refine ⟨by simp, ?_⟩
            intro c hc
            simp only [List.mem_cons] at hc
            rcases hc with hc | hc | hc
            · subst hc
              refine ⟨hsg.1, ?_, ?_⟩ <;>
                simp only [BNode.elems_node, List.length_take, hlen5] <;> decide
            · subst hc
              refine ⟨hsg.2, ?_, ?_⟩ <;>
                simp only [BNode.elems_node, List.length_drop, hlen5] <;> decide
            · simp at hc
          · rw [hionew, hAB2]
            rw [hAB1] at hsort
            exact pairwise_insert_middle A B e hsort hAlt hBgt
        · intro hmem2
          rw [hioBT] at hmem2
          exact absurd hmem2 hmem
        · intro _
          refine ⟨rfl, rfl, A, B, by rw [hioBT]; exact hAB1, ?_, hAlt, hBgt⟩
          unfold inorderBT
          simp only
          rw [hionew, hAB2]
      · have hval := bt_insert_root_nosplit bt e prev r r1 false prev hroot hrec hovf
        rw [hval]
        refine ⟨?_, rfl, ?_, ?_⟩
        · right
          exact ⟨r1, h, rfl, hg1, by omega, by omega, hs1⟩
        · intro hmem2
          rw [hioBT] at hmem2
          exact absurd hmem2 hmem
        · intro _
          refine ⟨rfl, rfl, A, B, by rw [hioBT]; exact hAB1, ?_, hAlt, hBgt⟩
          unfold inorderBT
          simp only
          exact hAB2

theorem TreeInv_bt_mk : TreeInv bt_mk := Or.inl rfl

theorem foldl_TreeInv (ops : List (Int × Option Int)) :
    ∀ bt : BT, TreeInv bt →
      TreeInv (ops.foldl (fun bt op => (bt_insert bt op.1 op.2).1) bt) := by
  induction ops with
  | nil => intro bt h; exact h
  | cons op ops ih =>
    intro bt h
    exact ih _ (bt_insert_spec bt op.1 op.2 h).1

theorem applyOps_TreeInv (ops : List (Int × Option Int)) : TreeInv (applyOps ops) :=
  foldl_TreeInv ops bt_mk TreeInv_bt_mk

theorem Reachable_TreeInv (bt : BT) (h : Reachable bt) : TreeInv bt := by
  obtain ⟨ops, hops⟩ := h
  rw [← hops]
  exact applyOps_TreeInv ops

/-! ### Stored keys vs in-order keys -/

theorem storedL_cons (es0 : List Int) (cs0 cs : List BNode) :
    storedL (BNode.node es0 cs0 :: cs) =
      storedKeys (BNode.node es0 cs0) ++ storedL cs := by
  rw [storedL]
  simp [storedKeys, BNode.elems_node, BNode.children_node, List.append_assoc]

theorem storedL_interleave_perm :
    ∀ cs : List BNode, ∀ es : List Int,
      (∀ c ∈ cs, (storedKeys c).Perm (inorder c)) →
      (cs.length = es.length + 1 ∨ cs = []) →
      (es ++ storedL cs).Perm (interleave cs es) := by
  intro cs
  induction cs with
  | nil =>
    intro es _ _
    rw [storedL, interleave_nil_left]
    simp
  | cons c cs1 ih =>
    intro es hmem hsh
    cases c with
    | node es0 cs0 =>
      rcases hsh with hsh | hsh
      · cases es with
        | nil =>
          have hcs1 : cs1 = [] := by
            simp only [List.length_cons, List.length_nil, Nat.zero_add] at hsh
            have : cs1.length = 0 := by omega
            exact List.eq_nil_of_length_eq_zero this
          subst hcs1
          rw [storedL_cons]
          simp only [storedL, List.append_nil, List.nil_append]
          have : interleave [BNode.node es0 cs0] [] = inorder (BNode.node es0 cs0) := by
            simp [interleave, inorder, BNode.elems_node, BNode.children_node]
          rw [this]
          exact hmem _ (by simp)
        | cons e es1 =>
          have hsh1 : cs1.length = es1.length + 1 := by
            simp only [List.length_cons] at hsh
            omega
          have hihm : ∀ c ∈ cs1, (storedKeys c).Perm (inorder c) := by
            intro c hc
            exact hmem c (by simp [hc])
          have hih := ih es1 hihm (Or.inl hsh1)
          rw [storedL_cons]
          have hstep1 : ((e :: es1) ++ (storedKeys (BNode.node es0 cs0) ++ storedL cs1)).Perm
              (e :: (storedKeys (BNode.node es0 cs0) ++ (es1 ++ storedL cs1))) := by
            simp only [List.cons_append]
            apply List.Perm.cons
            have hmid : ((es1 ++ storedKeys (BNode.node es0 cs0)) ++ storedL cs1).Perm
                ((storedKeys (BNode.node es0 cs0) ++ es1) ++ storedL cs1) :=
              List.Perm.append_right _ List.perm_append_comm
            have he1 : (es1 ++ storedKeys (BNode.node es0 cs0)) ++ storedL cs1 =
                es1 ++ (storedKeys (BNode.node es0 cs0) ++ storedL cs1) :=
              List.append_assoc _ _ _
            have he2 : (storedKeys (BNode.node es0 cs0) ++ es1) ++ storedL cs1 =
                storedKeys (BNode.node es0 cs0) ++ (es1 ++ storedL cs1) :=
              List.append_assoc _ _ _
            rw [he1, he2] at hmid
            exact hmid
          have hstep2 : (e :: (storedKeys (BNode.node es0 cs0) ++ (es1 ++ storedL cs1))).Perm
              (e :: (inorder (BNode.node es0 cs0) ++ interleave cs1 es1)) := by
            apply List.Perm.cons
            exact List.Perm.append (hmem _ (by simp)) hih
          have hstep3 : (e :: (inorder (BNode.node es0 cs0) ++ interleave cs1 es1)).Perm
              (inorder (BNode.node es0 cs0) ++ e :: interleave cs1 es1) :=
            List.perm_middle.symm
          have hfin : interleave (BNode.node es0 cs0 :: cs1) (e :: es1) =
              inorder (BNode.node es0 cs0) ++ e :: interleave cs1 es1 := by
            simp [interleave, inorder, BNode.elems_node, BNode.children_node]
          rw [hfin]
          exact (hstep1.trans hstep2).trans hstep3
      · simp at hsh

theorem storedKeys_perm_inorder_aux (n : Nat) :
    ∀ nd : BNode, sizeOf nd ≤ n → ShapeOK nd → (storedKeys nd).Perm (inorder nd) := by
  induction n with
  | zero =>
    intro nd hsz _
    cases nd with
    | node es cs => simp at hsz
  | succ n ih =>
    intro nd hsz hsh
    cases nd with
    | node es cs =>
      cases hsh with
      | ok _ _ hshape hmem =>
        have hrec : ∀ c ∈ cs, (storedKeys c).Perm (inorder c) := by
          intro c hc
          apply ih c _ (hmem c hc)
          have h1 : sizeOf c < sizeOf cs := List.sizeOf_lt_of_mem hc
          have h2 : sizeOf (BNode.node es cs) = 1 + sizeOf es + sizeOf cs := by simp
          omega
        have := storedL_interleave_perm cs es hrec
          (by rcases hshape with hx | hx
              · exact Or.inr hx
              · exact Or.inl hx)
        simpa [storedKeys, inorder, BNode.elems_node, BNode.children_node] using this

theorem storedKeys_perm_inorder (nd : BNode) (hsh : ShapeOK nd) :
    (storedKeys nd).Perm (inorder nd) :=
  storedKeys_perm_inorder_aux (sizeOf nd) nd (Nat.le_refl _) hsh

/-! ### The B-tree invariants, stated as the spec states them -/

/-- In every node, keys are strictly increasing under the comparison rule. -/
inductive KeysInc : BNode → Prop
  | ok : ∀ es cs, List.Chain' cmpLT es → (∀ c ∈ cs, KeysInc c) →
      KeysInc (.node es cs)

/-- Every key in the subtree at `children[i]` compares less than `elems[i]`,
and every key in the subtree at `children[i+1]` compares greater. -/
inductive RangesOK : BNode → Prop
  | ok : ∀ (es : List Int) (cs : List BNode),
      (∀ (i : Nat) (x : Int) (c : BNode), es[i]? = some x → cs[i]? = some c →
        ∀ k ∈ storedKeys c, cmpLT k x) →
      (∀ (i : Nat) (x : Int) (c : BNode), es[i]? = some x → cs[i + 1]? = some c →
        ∀ k ∈ storedKeys c, cmpLT x k) →
      (∀ c ∈ cs, RangesOK c) → RangesOK (.node es cs)

/-- All leaves at the same depth `h` from this node. -/
inductive SameDepth : Nat → BNode → Prop
  | leaf : ∀ es, SameDepth 0 (.node es [])
  | internal : ∀ es cs h, cs ≠ [] → (∀ c ∈ cs, SameDepth h c) →
      SameDepth (h + 1) (.node es cs)

/-- Every non-root node has `factor ≤ n ≤ 2·factor`; the root has
`n ≤ 2·factor` (`factor = 2`). -/
inductive CountsOK : Bool → BNode → Prop
  | ok : ∀ root es cs, (root = true → es.length ≤ 2 * 2) →
      (root = false → 2 ≤ es.length ∧ es.length ≤ 2 * 2) →
      (∀ c ∈ cs, CountsOK false c) → CountsOK root (.node es cs)

theorem inorder_sub_sorted (cs : List BNode) (es : List Int) (c : BNode) (i : Nat)
    (hc : cs[i]? = some c) (hi : i ≤ es.length)
    (hs : List.Pairwise (· < ·) (interleave cs es)) :
    List.Pairwise (· < ·) (inorder c) := by
  rw [interleave_focus cs es i c hc hi] at hs
  have h1 := (List.pairwise_append.mp hs).1
  exact (List.pairwise_append.mp h1).2.1

theorem good_sorted_keysInc (h : Nat) :
    ∀ nd : BNode, Good h nd → nd.elems.length ≤ 4 →
      List.Pairwise (· < ·) (inorder nd) → KeysInc nd := by
  induction h with
  | zero =>
    intro nd hg _ hs
    cases nd with
    | node es cs =>
      simp only [Good, BNode.children_node] at hg
      subst hg
      refine KeysInc.ok es [] ?_ (by intro c hc; simp at hc)
      have hes : List.Pairwise (· < ·) es := by
        simpa [inorder, BNode.elems_node, BNode.children_node, interleave_nil_left]
          using hs
      exact List.Chain'.imp (fun a b hab => (cmpLT_iff a b).mpr hab) hes.chain'
  | succ h ih =>
    intro nd hg _ hs
    cases nd with
    | node es cs =>
      simp only [Good, BNode.children_node, BNode.elems_node] at hg
      obtain ⟨hcl, hcs⟩ := hg
      have hsi : List.Pairwise (· < ·) (interleave cs es) := by
        simpa [inorder, BNode.elems_node, BNode.children_node] using hs
      refine KeysInc.ok es cs ?_ ?_
      · have hes : List.Pairwise (· < ·) es :=
          List.Pairwise.sublist (sublist_interleave cs es) hsi
        exact List.Chain'.imp (fun a b hab => (cmpLT_iff a b).mpr hab) hes.chain'
      · intro c hc
        obtain ⟨i, hilt, hieq⟩ := List.mem_iff_getElem.mp hc
        have hci : cs[i]? = some c := by
          rw [List.getElem?_eq_getElem hilt, hieq]
        have hile : i ≤ es.length := by omega
        obtain ⟨hgc, _, hc4⟩ := hcs c hc
        exact ih c hgc hc4 (inorder_sub_sorted cs es c i hci hile hsi)

theorem good_sameDepth (h : Nat) :
    ∀ nd : BNode, Good h nd → SameDepth h nd := by
  induction h with
  | zero =>
    intro nd hg
    cases nd with
    | node es cs =>
      simp only [Good, BNode.children_node] at hg
      subst hg
      exact SameDepth.leaf es
  | succ h ih =>
    intro nd hg
    cases nd with
    | node es cs =>
      simp only [Good, BNode.children_node, BNode.elems_node] at hg
      obtain ⟨hcl, hcs⟩ := hg
      refine SameDepth.internal es cs h ?_ ?_
      · intro hx
        rw [hx] at hcl
        simp at hcl
      · intro c hc
        exact ih c (hcs c hc).1

theorem good_counts_nonroot (h : Nat) :
    ∀ nd : BNode, Good h nd → 2 ≤ nd.elems.length → nd.elems.length ≤ 2 * 2 →
      CountsOK false nd := by
  induction h with
  | zero =>
    intro nd hg h2 h4
    cases nd with
    | node es cs =>
      simp only [Good, BNode.children_node] at hg
      subst hg
      simp only [BNode.elems_node] at h2 h4
      exact CountsOK.ok false es [] (by intro hx; simp at hx)
        (fun _ => ⟨h2, h4⟩) (by intro c hc; simp at hc)
  | succ h ih =>
    intro nd hg h2 h4
    cases nd with
    | node es cs =>
      simp only [Good, BNode.children_node, BNode.elems_node] at hg
      obtain ⟨hcl, hcs⟩ := hg
      simp only [BNode.elems_node] at h2 h4
      refine CountsOK.ok false es cs (by intro hx; simp at hx) (fun _ => ⟨h2, h4⟩) ?_
      intro c hc
      obtain ⟨hgc, hc2, hc4⟩ := hcs c hc
      exact ih c hgc hc2 hc4

theorem good_counts_root (h : Nat) (nd : BNode) (hg : Good h nd)
    (h4 : nd.elems.length ≤ 2 * 2) : CountsOK true nd := by
  cases h with
  | zero =>
    cases nd with
    | node es cs =>
      simp only [Good, BNode.children_node] at hg
      subst hg
      simp only [BNode.elems_node] at h4
      exact CountsOK.ok true es [] (fun _ => h4) (by intro hx; simp at hx)
        (by intro c hc; simp at hc)
  | succ h =>
    cases nd with
    | node es cs =>
      simp only [Good, BNode.children_node, BNode.elems_node] at hg
      obtain ⟨hcl, hcs⟩ := hg
      simp only [BNode.elems_node] at h4
      refine CountsOK.ok true es cs (fun _ => h4) (by intro hx; simp at hx) ?_
      intro c hc
      obtain ⟨hgc, hc2, hc4⟩ := hcs c hc
      exact good_counts_nonroot h c hgc hc2 hc4

theorem getElem?_lt_length {α : Type} (l : List α) (i : Nat) (a : α)
    (h : l[i]? = some a) : i < l.length := by
  by_contra hx
  simp [List.getElem?_eq_none (by omega : l.length ≤ i)] at h

theorem getElem?_val {α : Type} (l : List α) (i : Nat) (a : α)
    (h : l[i]? = some a) : ∃ hlt : i < l.length, l[i] = a := by
  have hlt := getElem?_lt_length l i a h
  refine ⟨hlt, ?_⟩
  rw [List.getElem?_eq_getElem hlt] at h
  exact (Option.some.injEq _ _).mp h

theorem good_sorted_rangesOK (h : Nat) :
    ∀ nd : BNode, Good h nd → nd.elems.length ≤ 4 →
      List.Pairwise (· < ·) (inorder nd) → RangesOK nd := by
  induction h with
  | zero =>
    intro nd hg _ _
    cases nd with
    | node es cs =>
      simp only [Good, BNode.children_node] at hg
      subst hg
      refine RangesOK.ok es [] ?_ ?_ (by intro c hc; simp at hc)
      · intro i x c _ hc
        simp at hc
      · intro i x c _ hc
        simp at hc
  | succ h ih =>
    intro nd hg _ hs
    cases nd with
    | node es cs =>
      simp only [Good, BNode.children_node, BNode.elems_node] at hg
      obtain ⟨hcl, hcs⟩ := hg
      have hsi : List.Pairwise (· < ·) (interleave cs es) := by
        simpa [inorder, BNode.elems_node, BNode.children_node] using hs
      refine RangesOK.ok es cs ?_ ?_ ?_
      · intro i x c hx hc k hk
        obtain ⟨hilt, hieq⟩ := getElem?_val es i x hx
        have hkio : k ∈ inorder c := by
          obtain ⟨hgc, _, _⟩ := hcs c (List.getElem?_mem hc)
          exact ((storedKeys_perm_inorder c (Good.shape h c hgc)).mem_iff).mp hk
        have hfocus := interleave_focus cs es i c hc (by omega)
        rw [hfocus] at hsi
        have hcross := (List.pairwise_append.mp hsi).2.2
        have hxin : x ∈ eFirst (cs.drop (i + 1)) (es.drop i) := by
          have hdr : es.drop i = x :: es.drop (i + 1) := by
            rw [← hieq]
            exact (List.getElem_cons_drop es i hilt).symm
          rw [hdr]
          simp [eFirst]
        have := hcross k (by simp [hkio]) x hxin
        exact (cmpLT_iff k x).mpr this
      · intro i x c hx hc k hk
        obtain ⟨hilt, hieq⟩ := getElem?_val es i x hx
        have hkio : k ∈ inorder c := by
          obtain ⟨hgc, _, _⟩ := hcs c (List.getElem?_mem hc)
          exact ((storedKeys_perm_inorder c (Good.shape h c hgc)).mem_iff).mp hk
        have hfocus := interleave_focus cs es (i + 1) c hc (by omega)
        rw [hfocus] at hsi
        have h1 := (List.pairwise_append.mp hsi).1
        have hcross := (List.pairwise_append.mp h1).2.2
        have hxin : x ∈ interleave (cs.take (i + 1)) (es.take (i + 1)) := by
          have hxt : x ∈ es.take (i + 1) := by
            rw [← List.take_concat_get' es i hilt, ← hieq]
            exact List.mem_append_right _ (by simp)
          exact (sublist_interleave (cs.take (i + 1)) (es.take (i + 1))).subset hxt
        have := hcross x hxin k hkio
        exact (cmpLT_iff x k).mpr this
      · intro c hc
        obtain ⟨i, hilt, hieq⟩ := List.mem_iff_getElem.mp hc
        have hci : cs[i]? = some c := by
          rw [List.getElem?_eq_getElem hilt, hieq]
        obtain ⟨hgc, _, hc4⟩ := hcs c hc
        exact ih c hgc hc4 (inorder_sub_sorted cs es c i hci (by omega) hsi)

/-- C1: For every sequence of `bt_insert` calls applied to the empty tree
produced by `bt_mk`, the resulting tree satisfies all B-tree invariants
between top-level operations: in every node the keys are strictly increasing
under the comparison rule, every key in the subtree at `children[i]` compares
less than `elems[i]` and every key in the subtree at `children[i+1]` compares
greater, all leaves are at the same depth from the root, every non-root node
has `factor ≤ n ≤ 2·factor`, and the root has `n ≤ 2·factor`. -/
theorem c1_insert_preserves_invariants (ops : List (Int × Option Int)) :
    ∀ r : BNode, (applyOps ops).root = some r →
      KeysInc r ∧ RangesOK r ∧ (∃ h, SameDepth h r) ∧ CountsOK true r := by
  intro r hr
  rcases applyOps_TreeInv ops with hnone | ⟨r2, h, hroot, hg, h1, h4, hsort⟩
  · rw [hnone] at hr
    exact absurd hr (by simp)
  · rw [hroot] at hr
    injection hr with hr
    subst hr
    exact ⟨good_sorted_keysInc h r2 hg (by omega) hsort,
           good_sorted_rangesOK h r2 hg (by omega) hsort,
           ⟨h, good_sameDepth h r2 hg⟩,
           good_counts_root h r2 hg (by omega)⟩

/-- Witness for C1 at the concrete insertion sequence `[5]`. -/
theorem c1_witness :
    KeysInc ⟨[5], []⟩ ∧ RangesOK ⟨[5], []⟩ ∧ (∃ h, SameDepth h ⟨[5], []⟩) ∧
      CountsOK true ⟨[5], []⟩ :=
  c1_insert_preserves_invariants [(5, none)] ⟨[5], []⟩ rfl

/-! ### Iterator abstraction -/

/-- Keys not yet yielded from one iterator frame. -/
def frameAbs (i : Nat) (nd : BNode) (vis : Bool) : List Int :=
  if vis then eFirst (nd.children.drop (i + 1)) (nd.elems.drop i)
  else interleave (nd.children.drop i) (nd.elems.drop i)

/-- Keys not yet yielded by the whole iterator. -/
def stackAbs : List (Nat × Option BNode) → Bool → List Int
  | [], _ => []
  | (_, none) :: _, _ => []
  | (i, some nd) :: rest, vis => frameAbs i nd vis ++ stackAbs rest true

def GoodFrame : Nat × Option BNode → Prop
  | (_, none) => False
  | (i, some nd) => ShapeOK nd ∧ i ≤ nd.elems.length + 1

def StackWF (s : List (Nat × Option BNode)) : Prop :=
  (∃ i, s = [(i, none)]) ∨ (s ≠ [] ∧ ∀ f ∈ s, GoodFrame f)

theorem shape_drop_all (es : List Int) (cs : List BNode) (hsh : ShapeOK ⟨es, cs⟩) :
    cs.drop (es.length + 1) = [] := by
  rcases shape_children es cs hsh with hx | hx
  · rw [hx]; simp
  · rw [List.drop_eq_nil_of_le (by omega)]

theorem frameAbs_past (i : Nat) (nd : BNode) (vis : Bool) (hsh : ShapeOK nd)
    (hi : nd.elems.length < i) : frameAbs i nd vis = [] := by
  cases nd with
  | node es cs =>
    simp only [BNode.elems_node] at hi
    have hes : es.drop i = [] := List.drop_eq_nil_of_le (by omega)
    cases vis with
    | true =>
      show eFirst (cs.drop (i + 1)) (es.drop i) = []
      rw [hes]
      rfl
    | false =>
      show interleave (cs.drop i) (es.drop i) = []
      have hcs : cs.drop i = [] := by
        rcases shape_children es cs hsh with hx | hx
        · rw [hx]; simp
        · rw [List.drop_eq_nil_of_le (by omega)]
      rw [hes, hcs, interleave_nil_left]

theorem iterLoop_eq_noneTop (i : Nat) (rest : List (Nat × Option BNode)) (vis : Bool) :
    iterLoop ((i, none) :: rest) vis = (none, (i, none) :: rest) := by
  rw [iterLoop.eq_def]

theorem iterLoop_eq_basePop (i : Nat) (nd : BNode) (vis : Bool)
    (h : nd.elems.length < i) :
    iterLoop [(i, some nd)] vis = (none, [(i, some nd)]) := by
  rw [iterLoop.eq_def]
  simp [h]

theorem iterLoop_eq_pop (i : Nat) (nd : BNode) (f : Nat × Option BNode)
    (rs : List (Nat × Option BNode)) (vis : Bool) (h : nd.elems.length < i) :
    iterLoop ((i, some nd) :: f :: rs) vis = iterLoop (f :: rs) true := by
  rw [iterLoop.eq_def]
  simp [h]

theorem iterLoop_eq_push (i : Nat) (nd : BNode) (rest : List (Nat × Option BNode))
    (vis : Bool) (c : BNode) (h1 : ¬nd.elems.length < i)
    (h2 : (if vis then none else nd.children[i]?) = some c) :
    iterLoop ((i, some nd) :: rest) vis =
      iterLoop ((0, some c) :: (i, some nd) :: rest) vis := by
  rw [iterLoop.eq_def]
  simp only [dif_neg h1]
  split
  · next c2 heq =>
      rw [h2] at heq
      have : c = c2 := (Option.some.injEq _ _).mp heq
      subst this
      rfl
  · next heq =>
      rw [h2] at heq
      exact absurd heq (by simp)

theorem iterLoop_eq_yield (i : Nat) (nd : BNode) (rest : List (Nat × Option BNode))
    (vis : Bool) (h1 : ¬nd.elems.length < i)
    (h2 : (if vis then none else nd.children[i]?) = none) (h3 : i < nd.elems.length) :
    iterLoop ((i, some nd) :: rest) vis =
      (some (nd.elems.getD i 0), (i + 1, some nd) :: rest) := by
  rw [iterLoop.eq_def]
  simp only [dif_neg h1]
  split
  · next c2 heq =>
      rw [h2] at heq
      exact absurd heq (by simp)
  · simp [h3]

theorem iterLoop_eq_skip (i : Nat) (nd : BNode) (rest : List (Nat × Option BNode))
    (vis : Bool) (h1 : ¬nd.elems.length < i)
    (h2 : (if vis then none else nd.children[i]?) = none) (h3 : ¬i < nd.elems.length) :
    iterLoop ((i, some nd) :: rest) vis = iterLoop ((i + 1, some nd) :: rest) vis := by
  rw [iterLoop.eq_def]
  simp only [dif_neg h1]
  split
  · next c2 heq =>
      rw [h2] at heq
      exact absurd heq (by simp)
  · simp [h3]

theorem stackAbs_cons_some (i : Nat) (nd : BNode) (rest : List (Nat × Option BNode))
    (vis : Bool) :
    stackAbs ((i, some nd) :: rest) vis = frameAbs i nd vis ++ stackAbs rest true := rfl

theorem stackAbs_cons_none (i : Nat) (rest : List (Nat × Option BNode)) (vis : Bool) :
    stackAbs ((i, none) :: rest) vis = [] := rfl

theorem shape_leaf_of_none (es : List Int) (cs : List BNode) (i : Nat)
    (hsh : ShapeOK ⟨es, cs⟩) (hi : i ≤ es.length) (hc : cs[i]? = none) : cs = [] := by
  rcases shape_children es cs hsh with hx | hx
  · exact hx
  · exfalso
    have : i < cs.length := by omega
    rw [List.getElem?_eq_getElem this] at hc
    exact absurd hc (by simp)

theorem frameAbs_push_split (i : Nat) (nd : BNode) (c : BNode)
    (hc : nd.children[i]? = some c) :
    frameAbs i nd false = frameAbs 0 c false ++ frameAbs i nd true := by
  obtain ⟨hlt, hval⟩ := getElem?_val nd.children i c hc
  have hdr : nd.children.drop i = c :: nd.children.drop (i + 1) := by
    rw [← List.getElem_cons_drop nd.children i hlt, hval]
  show interleave (nd.children.drop i) (nd.elems.drop i) =
    frameAbs 0 c false ++ frameAbs i nd true
  rw [hdr, interleave_cons]
  show inorder c ++ frameAbs i nd true = frameAbs 0 c false ++ frameAbs i nd true
  have h2 : frameAbs 0 c false = inorder c := by
    show interleave (c.children.drop 0) (c.elems.drop 0) = inorder c
    simp [inorder]
  rw [h2]

theorem frameAbs_yield_true (i : Nat) (nd : BNode) (hi : i < nd.elems.length) :
    frameAbs i nd true =
      nd.elems.getD i 0 :: frameAbs (i + 1) nd false := by
  have hdr : nd.elems.drop i = nd.elems.getD i 0 :: nd.elems.drop (i + 1) := by
    rw [List.getD_eq_getElem nd.elems 0 hi]
    exact (List.getElem_cons_drop nd.elems i hi).symm
  show eFirst (nd.children.drop (i + 1)) (nd.elems.drop i) = _
  rw [hdr]
  rfl

theorem frameAbs_yield_leaf (i : Nat) (nd : BNode) (hleaf : nd.children = [])
    (hi : i < nd.elems.length) :
    frameAbs i nd false =
      nd.elems.getD i 0 :: frameAbs (i + 1) nd false := by
  have hdr : nd.elems.drop i = nd.elems.getD i 0 :: nd.elems.drop (i + 1) := by
    rw [List.getD_eq_getElem nd.elems 0 hi]
    exact (List.getElem_cons_drop nd.elems i hi).symm
  show interleave (nd.children.drop i) (nd.elems.drop i) =
    nd.elems.getD i 0 :: interleave (nd.children.drop (i + 1)) (nd.elems.drop (i + 1))
  rw [hleaf]
  simp only [List.drop_nil, interleave_nil_left]
  exact hdr

theorem frameAbs_skip (i : Nat) (nd : BNode)
    (hif : ∀ vis : Bool, vis = false → nd.children = [])
    (hieq : i = nd.elems.length) :
    ∀ vis, frameAbs i nd vis = [] ∧ frameAbs (i + 1) nd vis = [] := by
  intro vis
  have hes : nd.elems.drop i = [] := List.drop_eq_nil_of_le (by omega)
  have hes1 : nd.elems.drop (i + 1) = [] := List.drop_eq_nil_of_le (by omega)
  cases vis with
  | true =>
    constructor
    · show eFirst (nd.children.drop (i + 1)) (nd.elems.drop i) = []
      rw [hes]
      rfl
    · show eFirst (nd.children.drop (i + 1 + 1)) (nd.elems.drop (i + 1)) = []
      rw [hes1]
      rfl
  | false =>
    have hleaf := hif false rfl
    constructor
    · show interleave (nd.children.drop i) (nd.elems.drop i) = []
      rw [hes, hleaf]
      simp [interleave_nil_left]
    · show interleave (nd.children.drop (i + 1)) (nd.elems.drop (i + 1)) = []
      rw [hes1, hleaf]
      simp [interleave_nil_left]

theorem iterLoop_spec (s : List (Nat × Option BNode)) (vis : Bool) :
    StackWF s →
    (iterLoop s vis).1 = (stackAbs s vis).head? ∧
    StackWF (iterLoop s vis).2 ∧
    stackAbs (iterLoop s vis).2 false = (stackAbs s vis).tail := by
  induction s, vis using iterLoop.induct with
  | case1 vis =>
    intro hwf
    rcases hwf with ⟨i, hx⟩ | ⟨hne, _⟩
    · exact absurd hx (by simp)
    · exact absurd rfl hne
  | case2 i rest vis =>
    intro hwf
    rw [iterLoop_eq_noneTop]
    exact ⟨rfl, hwf, rfl⟩
  | case3 i nd vis h1 =>
    intro hwf
    have hgf : GoodFrame (i, some nd) := by
      rcases hwf with ⟨i2, hx⟩ | ⟨_, hall⟩
      · exact absurd hx (by simp)
      · exact hall _ (by simp)
    obtain ⟨hsh, hile⟩ := hgf
    rw [iterLoop_eq_basePop i nd vis h1]
    have habs : stackAbs [(i, some nd)] vis = [] := by
      rw [stackAbs_cons_some, frameAbs_past i nd vis hsh h1]
      rfl
    refine ⟨by rw [habs]; rfl, hwf, ?_⟩
    rw [habs, stackAbs_cons_some, frameAbs_past i nd false hsh h1]
    rfl
  | case4 i nd vis h1 f rs ih =>
    intro hwf
    have hall : ∀ g ∈ (i, some nd) :: f :: rs, GoodFrame g := by
      rcases hwf with ⟨i2, hx⟩ | ⟨_, hall⟩
      · exact absurd hx (by simp)
      · exact hall
    have hsh : ShapeOK nd := (hall (i, some nd) (by simp)).1
    have hwf2 : StackWF (f :: rs) := by
      right
      exact ⟨by simp, fun g hg => hall g (by simp [hg])⟩
    have hih := ih hwf2
    rw [iterLoop_eq_pop i nd f rs vis h1]
    have habs : stackAbs ((i, some nd) :: f :: rs) vis = stackAbs (f :: rs) true := by
      rw [stackAbs_cons_some, frameAbs_past i nd vis hsh h1]
      rfl
    rw [habs]
    exact hih
  | case5 i nd rest vis h1 c hif ih =>
    intro hwf
    have hall : ∀ g ∈ (i, some nd) :: rest, GoodFrame g := by
      rcases hwf with ⟨i2, hx⟩ | ⟨_, hall⟩
      · exact absurd hx (by simp)
      · exact hall
    have hsh : ShapeOK nd := (hall (i, some nd) (by simp)).1
    have hvis : vis = false := by
      cases vis with
      | true => simp at hif
      | false => rfl
    subst hvis
    have hc : nd.children[i]? = some c := by
      simpa using hif
    have hshc : ShapeOK c := by
      cases nd with
      | node es cs =>
        cases hsh with
        | ok _ _ _ hmem =>
          exact hmem c (List.getElem?_mem (by simpa [BNode.children_node] using hc))
    have hwf2 : StackWF ((0, some c) :: (i, some nd) :: rest) := by
      right
      refine ⟨by simp, ?_⟩
      intro g hg
      rcases List.mem_cons.mp hg with hg | hg
      · subst hg
        exact ⟨hshc, by omega⟩
      · exact hall g hg
    have hih := ih hwf2
    rw [iterLoop_eq_push i nd rest false c h1 (by simpa using hif)]
    have habs : stackAbs ((i, some nd) :: rest) false =
        stackAbs ((0, some c) :: (i, some nd) :: rest) false := by
      rw [stackAbs_cons_some, stackAbs_cons_some, stackAbs_cons_some,
        frameAbs_push_split i nd c hc]
      simp [List.append_assoc]
    rw [habs]
    exact hih
  | case6 i nd rest vis h1 hif h3 =>
    intro hwf
    have hall : ∀ g ∈ (i, some nd) :: rest, GoodFrame g := by
      rcases hwf with ⟨i2, hx⟩ | ⟨_, hall⟩
      · exact absurd hx (by simp)
      · exact hall
    have hsh : ShapeOK nd := (hall (i, some nd) (by simp)).1
    rw [iterLoop_eq_yield i nd rest vis h1 (by
      cases vis with
      | true => simp
      | false => simpa using hif) h3]
    have hkey : frameAbs i nd vis = nd.elems.getD i 0 :: frameAbs (i + 1) nd false := by
      cases vis with
      | true => exact frameAbs_yield_true i nd h3
      | false =>
        have hcnone : nd.children[i]? = none := by simpa using hif
        have hleaf : nd.children = [] := by
          cases nd with
          | node es cs =>
            exact shape_leaf_of_none es cs i hsh
              (by simpa [BNode.elems_node] using Nat.le_of_lt h3)
              (by simpa [BNode.children_node] using hcnone)
        exact frameAbs_yield_leaf i nd hleaf h3
    have hwf2 : StackWF ((i + 1, some nd) :: rest) := by
      right
      refine ⟨by simp, ?_⟩
      intro g hg
      rcases List.mem_cons.mp hg with hg | hg
      · subst hg
        exact ⟨hsh, by omega⟩
      · exact hall g (by simp [hg])
    refine ⟨?_, hwf2, ?_⟩
    · rw [stackAbs_cons_some, hkey]
      rfl
    · rw [stackAbs_cons_some, stackAbs_cons_some, hkey]
      rfl
  | case7 i nd rest vis h1 hif h3 ih =>
    intro hwf
    have hall : ∀ g ∈ (i, some nd) :: rest, GoodFrame g := by
      rcases hwf with ⟨i2, hx⟩ | ⟨_, hall⟩
      · exact absurd hx (by simp)
      · exact hall
    have hsh : ShapeOK nd := (hall (i, some nd) (by simp)).1
    have hieq : i = nd.elems.length := by omega
    have hleafif : ∀ v : Bool, v = false → vis = false → nd.children = [] := by
      intro v _ hv
      subst hv
      have hcnone : nd.children[i]? = none := by simpa using hif
      cases nd with
      | node es cs =>
        exact shape_leaf_of_none es cs i hsh
          (by simp only [BNode.elems_node] at hieq; omega)
          (by simpa [BNode.children_node] using hcnone)
    have hwf2 : StackWF ((i + 1, some nd) :: rest) := by
      right
      refine ⟨by simp, ?_⟩
      intro g hg
      rcases List.mem_cons.mp hg with hg | hg
      · subst hg
        exact ⟨hsh, by omega⟩
      · exact hall g (by simp [hg])
    have hih := ih hwf2
    rw [iterLoop_eq_skip i nd rest vis h1 (by
      cases vis with
      | true => simp
      | false => simpa using hif) h3]
    have habs : stackAbs ((i, some nd) :: rest) vis =
        stackAbs ((i + 1, some nd) :: rest) vis := by
      rw [stackAbs_cons_some, stackAbs_cons_some]
      cases hv : vis with
      | true =>
        have hes : nd.elems.drop i = [] := List.drop_eq_nil_of_le (by omega)
        have hes1 : nd.elems.drop (i + 1) = [] := List.drop_eq_nil_of_le (by omega)
        show eFirst (nd.children.drop (i + 1)) (nd.elems.drop i) ++ _ =
          eFirst (nd.children.drop (i + 1 + 1)) (nd.elems.drop (i + 1)) ++ _
        rw [hes, hes1]
        rfl
      | false =>
        have hleaf : nd.children = [] := by
          subst hv
          exact hleafif false rfl rfl
        have hes : nd.elems.drop i = [] := List.drop_eq_nil_of_le (by omega)
        have hes1 : nd.elems.drop (i + 1) = [] := List.drop_eq_nil_of_le (by omega)
        show interleave (nd.children.drop i) (nd.elems.drop i) ++ _ =
          interleave (nd.children.drop (i + 1)) (nd.elems.drop (i + 1)) ++ _
        rw [hes, hes1, hleaf]
        simp [interleave_nil_left]
    rw [habs]
    exact hih

theorem iterState_spec (s : List (Nat × Option BNode)) (hwf : StackWF s) (k : Nat) :
    StackWF (iterState s k) ∧
    stackAbs (iterState s k) false = (stackAbs s false).drop k := by
  induction k with
  | zero => exact ⟨hwf, by simp [iterState]⟩
  | succ k ih =>
    have hstep := iterLoop_spec (iterState s k) false ih.1
    refine ⟨hstep.2.1, ?_⟩
    show stackAbs (iterLoop (iterState s k) false).2 false = _
    rw [hstep.2.2, ih.2, List.tail_drop]

theorem iterOut_spec (s : List (Nat × Option BNode)) (hwf : StackWF s) (k : Nat) :
    iterOut s k = (stackAbs s false)[k]? := by
  have hst := iterState_spec s hwf k
  have hstep := iterLoop_spec (iterState s k) false hst.1
  show (iterLoop (iterState s k) false).1 = _
  rw [hstep.1, hst.2, List.head?_drop]

theorem bt_iter_mk_WF (bt : BT) (hinv : TreeInv bt) :
    StackWF (bt_iter_dfs_mk bt) ∧
    stackAbs (bt_iter_dfs_mk bt) false = inorderBT bt := by
  rcases hinv with hnone | ⟨r, h, hroot, hg, _, _, _⟩
  · rw [show bt_iter_dfs_mk bt = [(0, none)] from by
      unfold bt_iter_dfs_mk
      rw [hnone]]
    refine ⟨Or.inl ⟨0, rfl⟩, ?_⟩
    unfold inorderBT
    rw [hnone]
    rfl
  · rw [show bt_iter_dfs_mk bt = [(0, some r)] from by
      unfold bt_iter_dfs_mk
      rw [hroot]]
    constructor
    · right
      refine ⟨by simp, ?_⟩
      intro g hg2
      simp only [List.mem_singleton] at hg2
      subst hg2
      exact ⟨Good.shape h r hg, by omega⟩
    · rw [stackAbs_cons_some]
      unfold inorderBT
      rw [hroot]
      show frameAbs 0 r false ++ [] = inorder r
      rw [List.append_nil]
      show interleave (r.children.drop 0) (r.elems.drop 0) = inorder r
      simp [inorder]

theorem storedBT_perm (bt : BT) (hinv : TreeInv bt) :
    (inorderBT bt).Perm (storedBT bt) := by
  rcases hinv with hnone | ⟨r, h, hroot, hg, _, _, _⟩
  · unfold inorderBT storedBT
    rw [hnone]
  · unfold inorderBT storedBT
    rw [hroot]
    exact (storedKeys_perm_inorder r (Good.shape h r hg)).symm

theorem inorderBT_sorted (bt : BT) (hinv : TreeInv bt) :
    List.Chain' cmpLT (inorderBT bt) := by
  rcases hinv with hnone | ⟨r, h, hroot, _, _, _, hsort⟩
  · unfold inorderBT
    rw [hnone]
    simp
  · unfold inorderBT
    rw [hroot]
    exact List.Chain'.imp (fun a b hab => (cmpLT_iff a b).mpr hab) hsort.chain'

/-- C2: For every tree built by any sequence of `bt_insert` calls from
`bt_mk`, the iterator constructed by `bt_iter_dfs_mk` yields, across
successive `bt_iter_dfs_next` calls until the first `none`, exactly the
ascending sort of all keys currently stored in the tree, each exactly once:
the `k`-th call yields the `k`-th entry of the in-order key list (and `none`
past its end), that list is strictly ascending under the comparison rule, and
it is a permutation of the multiset of keys stored in the tree's nodes. -/
theorem c2_iterator_sorted_output (ops : List (Int × Option Int)) (k : Nat) :
    iterOut (bt_iter_dfs_mk (applyOps ops)) k = (inorderBT (applyOps ops))[k]? ∧
    List.Chain' cmpLT (inorderBT (applyOps ops)) ∧
    (inorderBT (applyOps ops)).Perm (storedBT (applyOps ops)) := by
  have hinv := applyOps_TreeInv ops
  have hmk := bt_iter_mk_WF (applyOps ops) hinv
  refine ⟨?_, inorderBT_sorted _ hinv, storedBT_perm _ hinv⟩
  rw [iterOut_spec _ hmk.1 k, hmk.2]

/-! ### Iterator exhaustion -/

def TerminalStack (s : List (Nat × Option BNode)) : Prop :=
  s = [] ∨ (∃ i r, s = (i, none) :: r) ∨
    (∃ i nd, s = [(i, some nd)] ∧ nd.elems.length < i)

theorem iterLoop_eq_nil (vis : Bool) : iterLoop [] vis = (none, []) := by
  rw [iterLoop.eq_def]

theorem iterLoop_terminal (s : List (Nat × Option BNode)) (ht : TerminalStack s)
    (vis : Bool) : iterLoop s vis = (none, s) := by
  rcases ht with hx | ⟨i, r, hx⟩ | ⟨i, nd, hx, hlt⟩
  · subst hx
    exact iterLoop_eq_nil vis
  · subst hx
    exact iterLoop_eq_noneTop i r vis
  · subst hx
    exact iterLoop_eq_basePop i nd vis hlt

theorem iterLoop_none_terminal (s : List (Nat × Option BNode)) (vis : Bool) :
    (iterLoop s vis).1 = none → TerminalStack (iterLoop s vis).2 := by
  induction s, vis using iterLoop.induct with
  | case1 vis =>
    intro _
    rw [iterLoop_eq_nil]
    exact Or.inl rfl
  | case2 i rest vis =>
    intro _
    rw [iterLoop_eq_noneTop]
    exact Or.inr (Or.inl ⟨i, rest, rfl⟩)
  | case3 i nd vis h1 =>
    intro _
    rw [iterLoop_eq_basePop i nd vis h1]
    exact Or.inr (Or.inr ⟨i, nd, rfl, h1⟩)
  | case4 i nd vis h1 f rs ih =>
    rw [iterLoop_eq_pop i nd f rs vis h1]
    exact ih
  | case5 i nd rest vis h1 c hif ih =>
    have hvis : vis = false := by
      cases vis with
      | true => simp at hif
      | false => rfl
    subst hvis
    rw [iterLoop_eq_push i nd rest false c h1 (by simpa using hif)]
    exact ih
  | case6 i nd rest vis h1 hif h3 =>
    rw [iterLoop_eq_yield i nd rest vis h1 (by
      cases vis with
      | true => simp
      | false => simpa using hif) h3]
    intro hx
    simp at hx
  | case7 i nd rest vis h1 hif h3 ih =>
    rw [iterLoop_eq_skip i nd rest vis h1 (by
      cases vis with
      | true => simp
      | false => simpa using hif) h3]
    exact ih

theorem iterOut_none_forever (s : List (Nat × Option BNode)) (k : Nat)
    (hk : iterOut s k = none) : ∀ j, k ≤ j → iterOut s j = none := by
  have hterm : TerminalStack (iterState s (k + 1)) := by
    show TerminalStack (bt_iter_dfs_next (iterState s k)).2
    exact iterLoop_none_terminal (iterState s k) false hk
  have hfix : ∀ m, iterState s (k + 1 + m) = iterState s (k + 1) := by
    intro m
    induction m with
    | zero => rfl
    | succ m ih =>
      show (bt_iter_dfs_next (iterState s (k + 1 + m))).2 = _
      rw [ih]
      show (iterLoop (iterState s (k + 1)) false).2 = _
      rw [iterLoop_terminal _ hterm false]
  intro j hj
  rcases Nat.eq_or_lt_of_le hj with hj2 | hj2
  · rw [← hj2]
    exact hk
  · have : ∃ m, j = k + 1 + m := ⟨j - (k + 1), by omega⟩
    obtain ⟨m, hm⟩ := this
    subst hm
    show (bt_iter_dfs_next (iterState s (k + 1 + m))).1 = none
    rw [hfix m]
    show (iterLoop (iterState s (k + 1)) false).1 = none
    rw [iterLoop_terminal _ hterm false]

/-- C9: For every tree, once `bt_iter_dfs_next` on an iterator made by
`bt_iter_dfs_mk` returns `none` (NULL), every subsequent call also returns
`none` — the iterator neither resets nor errors; and the iterator over a tree
with an absent root (the empty tree) returns `none` on every call. -/
theorem c9_iterator_stays_exhausted (bt : BT) (k j : Nat) :
    (iterOut (bt_iter_dfs_mk bt) k = none → k ≤ j →
      iterOut (bt_iter_dfs_mk bt) j = none) ∧
    (bt.root = none → iterOut (bt_iter_dfs_mk bt) k = none) := by
  constructor
  · intro hk hkj
    exact iterOut_none_forever _ k hk j hkj
  · intro hroot
    have hmk : bt_iter_dfs_mk bt = [(0, none)] := by
      unfold bt_iter_dfs_mk
      rw [hroot]
    have h0 : iterOut (bt_iter_dfs_mk bt) 0 = none := by
      rw [hmk]
      show (iterLoop [(0, none)] false).1 = none
      rw [iterLoop_eq_noneTop]
    exact iterOut_none_forever _ 0 h0 k (by omega)

/-- Witness for C9: the iterator over the one-key tree `{5}` returns `none`
on the second call (having returned `none` already on... the second call is
the first `none`), and stays `none` on the third call. -/
theorem c9_witness : iterOut (bt_iter_dfs_mk (⟨some ⟨[5], []⟩, 0⟩ : BT)) 2 = none :=
  (c9_iterator_stays_exhausted (⟨some ⟨[5], []⟩, 0⟩ : BT) 1 2).1
    (by simp [iterOut, iterState, bt_iter_dfs_next, bt_iter_dfs_mk, iterLoop,
      BNode.elems_node, BNode.children_node])
    (by omega)

/-- C5: the code never maintains `bt.size`. After inserting one element into
the empty tree the iterator yields exactly one element, but the tree's
element count field is still `0`: the yielded count (1) differs from
`bt.size` (0), contradicting the claim that they are equal. -/
theorem c5_size_never_updated :
    (applyOps [(5, none)]).size = 0 ∧
    iterOut (bt_iter_dfs_mk (applyOps [(5, none)])) 0 = some 5 ∧
    iterOut (bt_iter_dfs_mk (applyOps [(5, none)])) 1 = none := by
  have happ : applyOps [(5, none)] = ⟨some ⟨[5], []⟩, 0⟩ := rfl
  rw [happ]
  refine ⟨rfl, ?_, ?_⟩ <;>
    simp [iterOut, iterState, bt_iter_dfs_next, bt_iter_dfs_mk, iterLoop,
      BNode.elems_node, BNode.children_node]

/-! ### Lookup -/

theorem bt_lookup_go_found (nd : BNode) (e : Int)
    (h : 0 ≤ bt_node_bsearch nd e) :
    bt_lookup_go nd e =
      (some (nd.elems.getD (bt_node_bsearch nd e).toNat 0), nd) := by
  rw [bt_lookup_go]
  simp [h]

theorem bt_lookup_go_descend (nd : BNode) (e : Int) (c : BNode)
    (h : ¬0 ≤ bt_node_bsearch nd e)
    (hc : nd.children[(-(bt_node_bsearch nd e) - 1).toNat]? = some c) :
    bt_lookup_go nd e = bt_lookup_go c e := by
  rw [bt_lookup_go]
  simp only [if_neg h]
  split
  · next c2 heq =>
      rw [hc] at heq
      have : c = c2 := (Option.some.injEq _ _).mp heq
      subst this
      rfl
  · next heq =>
      rw [hc] at heq
      exact absurd heq (by simp)

theorem bt_lookup_go_leaf (nd : BNode) (e : Int)
    (h : ¬0 ≤ bt_node_bsearch nd e)
    (hc : nd.children[(-(bt_node_bsearch nd e) - 1).toNat]? = none) :
    bt_lookup_go nd e = (none, nd) := by
  rw [bt_lookup_go]
  simp only [if_neg h]
  split
  · next c2 heq =>
      rw [hc] at heq
      exact absurd heq (by simp)
  · rfl

theorem mem_storedL (cs : List BNode) (x : Int) :
    x ∈ storedL cs ↔ ∃ c ∈ cs, x ∈ storedKeys c := by
  induction cs with
  | nil =>
    rw [storedL]
    simp
  | cons c cs1 ih =>
    cases c with
    | node es0 cs0 =>
      rw [storedL_cons]
      simp only [List.mem_append, ih, List.mem_cons]
      constructor
      · intro hx
        rcases hx with hx | ⟨c2, hc2, hx⟩
        · exact ⟨_, Or.inl rfl, hx⟩
        · exact ⟨c2, Or.inr hc2, hx⟩
      · intro ⟨c2, hc2, hx⟩
        rcases hc2 with hc2 | hc2
        · subst hc2
          exact Or.inl hx
        · exact Or.inr ⟨c2, hc2, hx⟩

theorem keysInc_elems_sorted (es : List Int) (cs : List BNode)
    (h : KeysInc ⟨es, cs⟩) : List.Pairwise (· < ·) es := by
  cases h with
  | ok _ _ hch _ =>
    have hch2 : List.Chain' (· < ·) es :=
      List.Chain'.imp (fun a b hab => (cmpLT_iff a b).mp hab) hch
    exact List.chain'_iff_pairwise.mp hch2

theorem bt_lookup_go_spec_aux (e : Int) (n : Nat) :
    ∀ nd : BNode, sizeOf nd ≤ n →
    ShapeOK nd → KeysInc nd → RangesOK nd → 1 ≤ nd.elems.length →
    (∀ c ∈ nd.children, CountsOK false c) →
    (e ∈ storedKeys nd → (bt_lookup_go nd e).1 = some e) ∧
    (e ∉ storedKeys nd → (bt_lookup_go nd e).1 = none) := by
  induction n with
  | zero =>
    intro nd hsz
    cases nd with
    | node es cs => simp at hsz
  | succ n ih =>
    intro nd hsz hsh hki hro hn1 hcnt
    cases nd with
    | node es cs =>
      simp only [BNode.elems_node, BNode.children_node] at hn1 hcnt
      have hes : List.Pairwise (· < ·) es := keysInc_elems_sorted es cs hki
      have hne : es ≠ [] := by
        intro hx
        rw [hx] at hn1
        simp at hn1
      have hstored : storedKeys (BNode.node es cs) = es ++ storedL cs := by
        simp [storedKeys, BNode.elems_node, BNode.children_node]
      have hres := bsearchGo_spec es e hes es.length 0 es.length (by omega)
        (by omega) (by omega) (by omega) (by intro j h1 h2; omega)
      have hidx : bt_node_bsearch (BNode.node es cs) e =
          (bsearchGo es e 0 es.length).1 := by
        unfold bt_node_bsearch
        simp [BNode.elems_node]
      rcases hres.2.2 with ⟨hge, hlt, hgd⟩ | ⟨hneg, hple, hlo, hhi⟩
      · have hmemes : e ∈ es := hgd ▸ mem_of_getD es _ hlt
        rw [bt_lookup_go_found (BNode.node es cs) e (by rw [hidx]; omega)]
        constructor
        · intro _
          simp only [BNode.elems_node]
          rw [hidx, hgd]
        · intro hnm
          exfalso
          apply hnm
          rw [hstored]
          exact List.mem_append_left _ hmemes
      · have hnotes : e ∉ es := by
          intro hmem
          rcases List.mem_iff_getElem.mp hmem with ⟨j, hj, hje⟩
          have hgd : es.getD j 0 = e := by
            rw [List.getD_eq_getElem es 0 hj]
            exact hje
          rcases Nat.lt_or_ge j (-(bsearchGo es e 0 es.length).1 - 1).toNat with h | h
          · have := hlo j h
            omega
          · have := hhi j h hj
            omega
        have hnegn : ¬0 ≤ bt_node_bsearch (BNode.node es cs) e := by
          rw [hidx]
          omega
        have hpeq : (-(bt_node_bsearch (BNode.node es cs) e) - 1).toNat =
            (-(bsearchGo es e 0 es.length).1 - 1).toNat := by
          rw [hidx]
        have hplen : (-(bt_node_bsearch (BNode.node es cs) e) - 1).toNat ≤ es.length := by
          rw [hpeq]
          omega
        cases hcget : cs[(-(bt_node_bsearch (BNode.node es cs) e) - 1).toNat]? with
        | none =>
          have hleaf : cs = [] :=
            shape_leaf_of_none es cs _ hsh hplen hcget
          rw [bt_lookup_go_leaf (BNode.node es cs) e hnegn hcget]
          constructor
          · intro hmem
            exfalso
            rw [hstored, hleaf] at hmem
            rcases List.mem_append.mp hmem with hx | hx
            · exact hnotes hx
            · rw [storedL] at hx
              simp at hx
          · intro _
            rfl
        | some c =>
          have hcmem : c ∈ cs := List.getElem?_mem hcget
          have hcs_shape : ShapeOK c := by
            cases hsh with
            | ok _ _ _ hmem => exact hmem c hcmem
          have hcs_ki : KeysInc c := by
            cases hki with
            | ok _ _ _ hmem => exact hmem c hcmem
          have hcs_ro : RangesOK c := by
            cases hro with
            | ok _ _ _ _ hmem => exact hmem c hcmem
          have hcsplit : (2 ≤ c.elems.length ∧ c.elems.length ≤ 2 * 2) ∧
              ∀ c2 ∈ c.children, CountsOK false c2 := by
            have hthis := hcnt c hcmem
            cases c with
            | node es2 cs2 =>
              cases hthis with
              | ok _ _ _ _ hfalse hmem2 =>
                exact ⟨by simpa [BNode.elems_node] using hfalse rfl,
                  by simpa [BNode.children_node] using hmem2⟩
          obtain ⟨⟨hc2, _⟩, hccnt⟩ := hcsplit
          have hszc : sizeOf c ≤ n := by
            have h1 : sizeOf c < sizeOf cs := List.sizeOf_lt_of_mem hcmem
            have h2 : sizeOf (BNode.node es cs) = 1 + sizeOf es + sizeOf cs := by simp
            omega
          have hihc := ih c hszc hcs_shape hcs_ki hcs_ro (by omega) hccnt
          rw [bt_lookup_go_descend (BNode.node es cs) e c hnegn hcget]
          have hcsl : cs.length = es.length + 1 := by
            rcases shape_children es cs hsh with hx2 | hx2
            · rw [hx2] at hcmem
              simp at hcmem
            · exact hx2
          have hkey : e ∈ storedKeys (BNode.node es cs) ↔ e ∈ storedKeys c := by
            rw [hstored]
            constructor
            · intro hmem
              rcases List.mem_append.mp hmem with hx | hx
              · exact absurd hx hnotes
              · rcases (mem_storedL cs e).mp hx with ⟨c2, hc2mem, hec2⟩
                rcases List.mem_iff_getElem.mp hc2mem with ⟨j, hjlt, hjeq⟩
                rcases Nat.lt_trichotomy j
                  (-(bt_node_bsearch (BNode.node es cs) e) - 1).toNat with hj | hj | hj
                · exfalso
                  have hjes : j < es.length := by omega
                  cases hro with
                  | ok _ _ hlow _ _ =>
                    have hck := hlow j es[j] c2 (List.getElem?_eq_getElem hjes)
                      (by rw [List.getElem?_eq_getElem hjlt, hjeq]) e hec2
                    have he_lt : e < es[j] := (cmpLT_iff e es[j]).mp hck
                    have hjp : es.getD j 0 < e := by
                      apply hlo
                      omega
                    rw [List.getD_eq_getElem es 0 hjes] at hjp
                    omega
                · have hceq : c2 = c := by
                    subst hj
                    have hg2 := hcget
                    rw [List.getElem?_eq_getElem
                      (by omega : (-(bt_node_bsearch (BNode.node es cs) e) - 1).toNat <
                        cs.length)] at hg2
                    have hg3 := (Option.some.injEq _ _).mp hg2
                    rw [← hjeq, ← hg3]
                  rw [← hceq]
                  exact hec2
                · exfalso
                  have hj1lt : j - 1 < es.length := by omega
                  cases hro with
                  | ok _ _ _ hhigh _ =>
                    have hck := hhigh (j - 1) es[j - 1] c2
                      (List.getElem?_eq_getElem hj1lt)
                      (by rw [show j - 1 + 1 = j from by omega,
                        List.getElem?_eq_getElem hjlt, hjeq]) e hec2
                    have he_gt : es[j - 1] < e := (cmpLT_iff _ _).mp hck
                    have hjp : e < es.getD (j - 1) 0 := by
                      apply hhi
                      · omega
                      · omega
                    rw [List.getD_eq_getElem es 0 hj1lt] at hjp
                    omega
            · intro hmem
              apply List.mem_append_right
              exact (mem_storedL cs e).mpr ⟨c, hcmem, hmem⟩
          constructor
          · intro hmem
            exact hihc.1 (hkey.mp hmem)
          · intro hnm
            exact hihc.2 (fun hx => hnm (hkey.mpr hx))

/-! ### C4: lookup correctness -/

/-- The B-tree invariants at tree level, as assumed by the lookup claim:
whenever a root is present it satisfies the shape discipline, per-node key
ordering, the subtree range conditions, leaf equidistance and the key-count
bounds, and it holds at least one key.  (The code keeps the root nonempty
whenever it exists, and `bt_node_bsearch` — called by `bt_lookup_node` on
every visited node — requires a nonempty node.) -/
def BTreeInvariants (bt : BT) : Prop :=
  ∀ r : BNode, bt.root = some r →
    ShapeOK r ∧ KeysInc r ∧ RangesOK r ∧ (∃ h, SameDepth h r) ∧
      CountsOK true r ∧ 1 ≤ r.elems.length

/-- C4: For every tree satisfying the B-tree invariants and every key,
`bt_lookup` returns the stored element comparing equal to the key if one
exists, and `none` (NULL) otherwise; in particular on the empty tree from
`bt_mk` it returns `none` for every key. -/
theorem c4_lookup_correct (bt : BT) (e : Int) (hinv : BTreeInvariants bt) :
    (e ∈ storedBT bt → bt_lookup bt e = some e) ∧
    (e ∉ storedBT bt → bt_lookup bt e = none) ∧
    bt_lookup bt_mk e = none := by
  have hmk : bt_lookup bt_mk e = none := rfl
  cases hroot : bt.root with
  | none =>
    have hst : storedBT bt = [] := by
      unfold storedBT
      rw [hroot]
    have hlk : bt_lookup bt e = none := by
      unfold bt_lookup bt_lookup_node
      rw [hroot]
    exact ⟨fun hmem => absurd (hst ▸ hmem) (by simp), fun _ => hlk, hmk⟩
  | some r =>
    obtain ⟨hsh, hki, hro, _, hcnt, h1⟩ := hinv r hroot
    have hc : ∀ c ∈ r.children, CountsOK false c := by
      cases r with
      | node es cs =>
        cases hcnt with
        | ok _ _ _ _ _ hmem =>
          simpa [BNode.children_node] using hmem
    have haux := bt_lookup_go_spec_aux e (sizeOf r) r (le_refl _) hsh hki hro h1 hc
    have hlk : bt_lookup bt e = (bt_lookup_go r e).1 := by
      unfold bt_lookup bt_lookup_node
      rw [hroot]
    have hst : storedBT bt = storedKeys r := by
      unfold storedBT
      rw [hroot]
    rw [hlk, hst]
    exact ⟨haux.1, haux.2, hmk⟩

/-- Witness for C4 at the one-key tree `{5}`: key 5 is found, key 7 is not,
and lookup on the empty tree returns `none`. -/
theorem c4_witness :
    bt_lookup (⟨some ⟨[5], []⟩, 0⟩ : BT) 5 = some 5 ∧
    bt_lookup (⟨some ⟨[5], []⟩, 0⟩ : BT) 7 = none ∧
    bt_lookup bt_mk 5 = none := by
  have hinv : BTreeInvariants (⟨some ⟨[5], []⟩, 0⟩ : BT) := by
    intro r hr
    injection hr with hr
    subst hr
    refine ⟨?_, ?_, ?_, ⟨0, ?_⟩, ?_, ?_⟩
    · exact ShapeOK.ok [5] [] (Or.inl rfl) (by intro c hc; simp at hc)
    · exact KeysInc.ok [5] [] (by simp) (by intro c hc; simp at hc)
    · exact RangesOK.ok [5] [] (by intro i x c _ hc; simp at hc)
        (by intro i x c _ hc; simp at hc) (by intro c hc; simp at hc)
    · exact SameDepth.leaf [5]
    · exact CountsOK.ok true [5] [] (by intro _; simp [BNode.elems_node])
        (by intro h; exact absurd h (by simp)) (by intro c hc; simp at hc)
    · simp [BNode.elems_node]
  have h5mem : (5 : Int) ∈ storedBT (⟨some ⟨[5], []⟩, 0⟩ : BT) := by
    simp [storedBT, storedKeys, storedL, BNode.elems_node, BNode.children_node]
  have h7nm : (7 : Int) ∉ storedBT (⟨some ⟨[5], []⟩, 0⟩ : BT) := by
    simp [storedBT, storedKeys, storedL, BNode.elems_node, BNode.children_node]
  exact ⟨(c4_lookup_correct _ 5 hinv).1 h5mem,
    (c4_lookup_correct _ 7 hinv).2.1 h7nm,
    (c4_lookup_correct bt_mk 5 (by intro r hr; exact absurd hr (by simp [bt_mk]))).2.2⟩

/-! ### C3: replace semantics -/

/-- C3: For every tree reachable by `bt_insert` calls from `bt_mk`, if an
element comparing equal to `elem` is already stored, `bt_insert bt elem prev`
returns `true`, stores `elem` in place of the old element, writes the
previous value into the `prev` cell when one is supplied, and leaves the
tree's structure (every node's key count, children and all other keys)
unchanged — the result tree is `bt` itself; if no equal element is stored it
returns `false`. -/
theorem c3_replace_semantics (bt : BT) (e : Int) (prev : Option Int)
    (hr : Reachable bt) :
    (e ∈ storedBT bt → bt_insert bt e prev = (bt, true, prev.map fun _ => e)) ∧
    (e ∉ storedBT bt → (bt_insert bt e prev).2.1 = false) := by
  have hinv := Reachable_TreeInv bt hr
  have hperm := storedBT_perm bt hinv
  have hspec := bt_insert_spec bt e prev hinv
  constructor
  · intro hmem
    exact hspec.2.2.1 (hperm.mem_iff.mpr hmem)
  · intro hnm
    exact (hspec.2.2.2 fun hx => hnm (hperm.mem_iff.mp hx)).1

/-- Witness for C3 at the reachable one-key tree `{5}`: re-inserting 5 with a
non-empty `prev` cell replaces (returns `true`, cell receives the old value 5,
tree unchanged); inserting the absent key 7 reports no replacement. -/
theorem c3_witness :
    bt_insert (⟨some ⟨[5], []⟩, 0⟩ : BT) 5 (some 0) =
      ((⟨some ⟨[5], []⟩, 0⟩ : BT), true, some 5) ∧
    (bt_insert (⟨some ⟨[5], []⟩, 0⟩ : BT) 7 (some 0)).2.1 = false := by
  have hr : Reachable (⟨some ⟨[5], []⟩, 0⟩ : BT) := ⟨[(5, none)], rfl⟩
  constructor
  · exact (c3_replace_semantics _ 5 (some 0) hr).1
      (by simp [storedBT, storedKeys, storedL, BNode.elems_node, BNode.children_node])
  · exact (c3_replace_semantics _ 7 (some 0) hr).2
      (by simp [storedBT, storedKeys, storedL, BNode.elems_node, BNode.children_node])

/-! ### C10: the `prev` out-parameter on the `false` path -/

/-- C10 as stated is false: `bt_node_insert` writes `*prev` on the replace
path of a child and then the recursion's result can still be reported as
`false` only on malformed trees — but on a malformed (yet type-correct) tree
the claim's "for every tree" quantifier is violated.  On the tree
`⟨[10], [⟨[1,2,3,4,5],[]⟩, ⟨[20],[]⟩]⟩` (left child over-full, so the way-up
split rebuilds the node after the child already replaced 3), inserting 3 with
a `prev` cell holding 99 returns `false` yet overwrites the cell with 3. -/
theorem c10_counterexample :
    (bt_insert ⟨some ⟨[10], [⟨[1, 2, 3, 4, 5], []⟩, ⟨[20], []⟩]⟩, 0⟩ 3
      (some 99)).2.1 = false ∧
    (bt_insert ⟨some ⟨[10], [⟨[1, 2, 3, 4, 5], []⟩, ⟨[20], []⟩]⟩, 0⟩ 3
      (some 99)).2.2 = some 3 ∧
    some (3 : Int) ≠ some (99 : Int) := by
  have hA : bt_node_insert ⟨[1, 2, 3, 4, 5], []⟩ 3 (some 99) =
      (⟨[1, 2, 3, 4, 5], []⟩, true, some 3) := by
    have hf := bt_node_insert_spec_found ⟨[1, 2, 3, 4, 5], []⟩ 3 (some 99)
      (by decide) (by decide) (by decide)
    simpa using hf
  have hb : bt_node_bsearch ⟨[10], [⟨[1, 2, 3, 4, 5], []⟩, ⟨[20], []⟩]⟩ 3 = -1 := by
    simp [bt_node_bsearch, bsearchGo, bt_default_cmp, BNode.elems_node]
  have hnode : bt_node_insert ⟨[10], [⟨[1, 2, 3, 4, 5], []⟩, ⟨[20], []⟩]⟩ 3
      (some 99) =
      (⟨[3, 10], [⟨[1, 2], []⟩, ⟨[4, 5], []⟩, ⟨[20], []⟩]⟩, false, some 3) := by
    have hstep := bt_node_insert_internal_split
      ⟨[10], [⟨[1, 2, 3, 4, 5], []⟩, ⟨[20], []⟩]⟩ 3 (some 99)
      ⟨[1, 2, 3, 4, 5], []⟩ ⟨[1, 2, 3, 4, 5], []⟩ true (some 3)
      (by rw [hb]; norm_num)
      (by rw [hb]; norm_num [BNode.children_node])
      hA
      (by decide)
    rw [hstep, hb]
    norm_num [bt_split_node, BNode.elems_node, BNode.children_node]
  refine ⟨?_, ?_, by decide⟩ <;>
    simp [bt_insert, hnode, BNode.elems_node, BNode.children_node]

/-- C10 (amended): restricted to the trees the library actually maintains —
every tree reachable from `bt_mk` by `bt_insert` calls — whenever
`bt_insert bt elem prev` returns `false`, the `prev` cell is left unmodified. -/
theorem c10_prev_unmodified_reachable (bt : BT) (e : Int) (prev : Option Int)
    (hr : Reachable bt) (hfalse : (bt_insert bt e prev).2.1 = false) :
    (bt_insert bt e prev).2.2 = prev := by
  have hinv := Reachable_TreeInv bt hr
  have hspec := bt_insert_spec bt e prev hinv
  by_cases hmem : e ∈ inorderBT bt
  · rw [hspec.2.2.1 hmem] at hfalse
    exact absurd hfalse (by simp)
  · exact (hspec.2.2.2 hmem).2.1

/-- Witness for the amended C10: inserting the absent key 7 into the
reachable tree `{5}` returns `false` and leaves the `prev` cell at 99. -/
theorem c10_witness :
    (bt_insert (⟨some ⟨[5], []⟩, 0⟩ : BT) 7 (some 99)).2.2 = some 99 :=
  c10_prev_unmodified_reachable (⟨some ⟨[5], []⟩, 0⟩ : BT) 7 (some 99)
    ⟨[(5, none)], rfl⟩
    (by simp [bt_insert, bt_node_insert, bt_node_bsearch, bsearchGo,
      bt_default_cmp, BNode.elems_node, BNode.children_node])

/-! ### C7: binary-search result encoding -/

/-- C7: for every node whose keys are strictly increasing under the
comparison rule and that holds at least one key, `bt_node_bsearch` returns
the non-negative index of the key comparing equal to `elem` when present,
and otherwise a negative value encoding the insertion point `p` — the number
of stored keys less than `elem` — as `-(p)-1`, i.e. `p = -(result) - 1`. -/
theorem c7_bsearch_encoding (nd : BNode) (e : Int)
    (hs : List.Chain' cmpLT nd.elems) (hne : nd.elems ≠ []) :
    (e ∈ nd.elems → 0 ≤ bt_node_bsearch nd e ∧
      nd.elems[(bt_node_bsearch nd e).toNat]? = some e) ∧
    (e ∉ nd.elems → bt_node_bsearch nd e < 0 ∧
      ((nd.elems.countP fun x => decide (cmpLT x e)) : Int) =
        -(bt_node_bsearch nd e) - 1) := by
  have hp : List.Pairwise (· < ·) nd.elems :=
    List.chain'_iff_pairwise.mp
      (List.Chain'.imp (fun a b hab => (cmpLT_iff a b).mp hab) hs)
  have hspec := bt_node_bsearch_spec nd e hp hne
  constructor
  · intro hmem
    obtain ⟨h0, hlt, hgd⟩ := hspec.1 hmem
    refine ⟨h0, ?_⟩
    rw [List.getElem?_eq_getElem hlt]
    rw [List.getD_eq_getElem nd.elems 0 hlt] at hgd
    rw [hgd]
  · intro hnm
    obtain ⟨hneg, hple, hlo, hhi⟩ := hspec.2 hnm
    refine ⟨hneg, ?_⟩
    have hcnt1 : nd.elems.countP (fun x => decide (cmpLT x e)) =
        nd.elems.countP (fun x => decide (x < e)) := by
      apply List.countP_congr
      intro a _
      rw [decide_eq_decide.mpr (cmpLT_iff a e)]
    rw [hcnt1, countP_lt_of_bounds nd.elems e _ hple hlo hhi]
    omega

/-- Witness for C7 on the node `⟨[1, 3, 5], []⟩`: the present key 3 is found
at index 1, and for the absent key 4 the count of smaller keys equals
`-(result) - 1`. -/
theorem c7_witness :
    (BNode.elems ⟨[1, 3, 5], []⟩)[(bt_node_bsearch ⟨[1, 3, 5], []⟩ 3).toNat]? =
      some 3 ∧
    (((BNode.elems ⟨[1, 3, 5], []⟩).countP fun x => decide (cmpLT x 4)) : Int) =
      -(bt_node_bsearch ⟨[1, 3, 5], []⟩ 4) - 1 :=
  ⟨((c7_bsearch_encoding ⟨[1, 3, 5], []⟩ 3
      (by refine List.chain'_cons.mpr ⟨by decide, List.chain'_cons.mpr
        ⟨by decide, List.chain'_singleton 5⟩⟩)
      (by decide)).1 (by decide)).2,
   ((c7_bsearch_encoding ⟨[1, 3, 5], []⟩ 4
      (by refine List.chain'_cons.mpr ⟨by decide, List.chain'_cons.mpr
        ⟨by decide, List.chain'_singleton 5⟩⟩)
      (by decide)).2 (by decide)).2⟩

/-! ### C8: binary-search safety -/

/-- C8: under the precondition that the node holds at least one key,
`bt_node_bsearch` only reads `elems` at indices `mid < n` (indices are
naturals, so `0 ≤ mid` is automatic), and the `assert(left == right)` on the
not-found path always holds.  The precondition is required: on an empty node
the very first loop iteration reads `elems[0]`, which is out of bounds. -/
theorem c8_bsearch_safety (nd : BNode) (e : Int) (h1 : 1 ≤ nd.elems.length) :
    (∀ m ∈ bsearchReads nd e, m < nd.elems.length) ∧
    bsearchAssertOK nd e = true ∧
    (∀ (nd0 : BNode) (e0 : Int), nd0.elems.length = 0 →
      ∃ m ∈ bsearchReads nd0 e0, ¬m < nd0.elems.length) := by
  have hsafe := bsearchGo_safety nd.elems e nd.elems.length 0 nd.elems.length
    (by omega) (by omega)
  refine ⟨fun m hm => (hsafe.1 m hm).2, hsafe.2, ?_⟩
  intro nd0 e0 hlen
  refine ⟨0, ?_, by omega⟩
  have hreads : bsearchReads nd0 e0 = (bsearchGo nd0.elems e0 0 0).2.1 := by
    unfold bsearchReads
    rw [hlen]
  rw [hreads, bsearchGo]
  rcases lt_trichotomy (bt_default_cmp e0 (nd0.elems.getD (0 + (0 - 0) / 2) 0)) 0
    with hc | hc | hc
  · rw [if_neg (by omega), if_pos hc, dif_neg (by omega)]
    simp
  · rw [if_neg (by omega), if_neg (by omega)]
    simp
  · rw [if_pos hc, dif_neg (by omega)]
    simp

/-- Witness for C8 on the node `⟨[1, 3, 5], []⟩` (which satisfies the
precondition) with the probe key 4: the assert held on the not-found exit. -/
theorem c8_witness :
    1 ≤ (BNode.elems (⟨[1, 3, 5], []⟩ : BNode)).length ∧
    bsearchAssertOK ⟨[1, 3, 5], []⟩ 4 = true :=
  ⟨by decide, (c8_bsearch_safety ⟨[1, 3, 5], []⟩ 4 (by decide)).2.1⟩

/-! ### C6: the split contract -/

theorem getElem?_insertIdx_lt {α : Type} (l : List α) (a : α) (i j : Nat)
    (h : j < i) (hi : i ≤ l.length) : (l.insertIdx i a)[j]? = l[j]? := by
  rw [insertIdx_eq_take_cons_drop l i a hi,
    List.getElem?_append_left (by rw [List.length_take]; omega),
    List.getElem?_take_of_lt h]

theorem getElem?_insertIdx_at {α : Type} (l : List α) (a : α) (i : Nat)
    (hi : i ≤ l.length) : (l.insertIdx i a)[i]? = some a := by
  rw [insertIdx_eq_take_cons_drop l i a hi,
    List.getElem?_append_right (by rw [List.length_take]; omega)]
  have h0 : i - (l.take i).length = 0 := by
    rw [List.length_take]
    omega
  rw [h0]
  simp

theorem getElem?_insertIdx_succ_ge {α : Type} (l : List α) (a : α) (i j : Nat)
    (h : i ≤ j) (hi : i ≤ l.length) : (l.insertIdx i a)[j + 1]? = l[j]? := by
  rw [insertIdx_eq_take_cons_drop l i a hi,
    List.getElem?_append_right (by rw [List.length_take]; omega)]
  have h2 : j + 1 - (l.take i).length = (j - i) + 1 := by
    rw [List.length_take]
    omega
  rw [h2, List.getElem?_cons_succ, List.getElem?_drop]
  have h3 : i + (j - i) = j := by omega
  rw [h3]

/-- C6: for every parent and index `idx` such that `parent.children[idx]`
holds exactly `2·factor+1 = 5` keys (and the parent has room for one more
child), `bt_split_node parent idx` inserts a new sibling at
`children[idx+1]`, shifting later child references right by one; the sibling
receives the child's keys at indices `[factor+1, 2·factor] = [3, 4]` and,
when the child is internal (with its full `2·factor+2` children), the
child's references at indices `[factor+1, 2·factor+1] = [3, 5]`; both the
child's and the sibling's key count become `factor = 2`; the returned
(promoted) key is the child's key at index `factor = 2`; and `parent.elems`
(hence `parent.n`) is unchanged. -/
theorem c6_split_contract (parent child : BNode) (idx : Nat)
    (hc : parent.children[idx]? = some child)
    (hn : child.elems.length = 2 * 2 + 1)
    (hroom : parent.children.length ≤ 2 * 2 + 1) :
    (bt_split_node parent idx).1.elems = parent.elems ∧
    (bt_split_node parent idx).1.children.length = parent.children.length + 1 ∧
    (∀ j, j < idx →
      (bt_split_node parent idx).1.children[j]? = parent.children[j]?) ∧
    (∀ j, idx + 1 ≤ j → j < parent.children.length →
      (bt_split_node parent idx).1.children[j + 1]? = parent.children[j]?) ∧
    (∃ child1, (bt_split_node parent idx).1.children[idx]? = some child1 ∧
      child1.elems.length = 2 ∧
      (∀ j, j < 2 → child1.elems[j]? = child.elems[j]?)) ∧
    (∃ sib, (bt_split_node parent idx).1.children[idx + 1]? = some sib ∧
      sib.elems.length = 2 ∧
      (∀ j, sib.elems[j]? = child.elems[2 + 1 + j]?) ∧
      (child.children = [] → sib.children = []) ∧
      (child.children ≠ [] → child.children.length = 2 * 2 + 2 →
        sib.children.length = 2 + 1 ∧
        ∀ j, sib.children[j]? = child.children[2 + 1 + j]?)) ∧
    child.elems[2]? = some (bt_split_node parent idx).2 := by
  have hidx : idx < parent.children.length := by
    by_contra hx
    rw [List.getElem?_eq_none (by omega)] at hc
    exact absurd hc (by simp)
  have hsetlen : (parent.children.set idx
      ⟨child.elems.take 2, child.children.take (2 + 1)⟩).length =
      parent.children.length := by simp
  rw [bt_split_node_eq parent idx child hc]
  simp only [BNode.elems_node, BNode.children_node]
  refine ⟨trivial, ?_, ?_, ?_, ?_, ?_, ?_⟩
  · rw [List.length_insertIdx _ _ (by omega), hsetlen]
  · intro j hj
    rw [getElem?_insertIdx_lt _ _ _ _ (by omega) (by omega),
      List.getElem?_set_ne (by omega)]
  · intro j hj1 hj2
    rw [getElem?_insertIdx_succ_ge _ _ _ _ (by omega) (by omega),
      List.getElem?_set_ne (by omega)]
  · refine ⟨⟨child.elems.take 2, child.children.take (2 + 1)⟩, ?_, ?_, ?_⟩
    · rw [getElem?_insertIdx_lt _ _ _ _ (by omega) (by omega)]
      exact getElem?_set_self parent.children idx _ hidx
    · simp only [BNode.elems_node, List.length_take]
      omega
    · intro j hj
      simp only [BNode.elems_node]
      exact List.getElem?_take_of_lt hj
  · refine ⟨⟨child.elems.drop (2 + 1),
      if child.children.isEmpty then [] else child.children.drop (2 + 1)⟩,
      ?_, ?_, ?_, ?_, ?_⟩
    · rw [getElem?_insertIdx_at _ _ _ (by omega)]
    · simp only [BNode.elems_node, List.length_drop]
      omega
    · intro j
      simp only [BNode.elems_node]
      exact List.getElem?_drop child.elems (2 + 1) j
    · intro hleaf
      simp only [BNode.children_node, hleaf]
      rfl
    · intro hint hlen6
      have hie : child.children.isEmpty = false := by
        cases hch : child.children with
        | nil => exact absurd hch hint
        | cons a t => rfl
      simp only [BNode.children_node, hie, Bool.false_eq_true, if_false]
      constructor
      · rw [List.length_drop, hlen6]
      · intro j
        exact List.getElem?_drop child.children (2 + 1) j
  · rw [List.getElem?_eq_getElem (by omega : 2 < child.elems.length),
      List.getD_eq_getElem child.elems 0 (by omega)]

/-- Witness for C6: splitting the over-full first child of
`⟨[10, 20], [⟨[1,2,3,4,5],[]⟩, ⟨[12],[]⟩, ⟨[30],[]⟩]⟩` keeps the parent's
keys, grows its child count to 4, and promotes the child's middle key 3. -/
theorem c6_witness :
    (bt_split_node ⟨[10, 20],
      [⟨[1, 2, 3, 4, 5], []⟩, ⟨[12], []⟩, ⟨[30], []⟩]⟩ 0).1.elems = [10, 20] ∧
    (bt_split_node ⟨[10, 20],
      [⟨[1, 2, 3, 4, 5], []⟩, ⟨[12], []⟩, ⟨[30], []⟩]⟩ 0).1.children.length = 4 ∧
    ([1, 2, 3, 4, 5] : List Int)[2]? =
      some (bt_split_node ⟨[10, 20],
        [⟨[1, 2, 3, 4, 5], []⟩, ⟨[12], []⟩, ⟨[30], []⟩]⟩ 0).2 := by
  have h := c6_split_contract
    ⟨[10, 20], [⟨[1, 2, 3, 4, 5], []⟩, ⟨[12], []⟩, ⟨[30], []⟩]⟩
    ⟨[1, 2, 3, 4, 5], []⟩ 0 rfl (by decide) (by decide)
  exact ⟨h.1, h.2.1, h.2.2.2.2.2.2⟩
